import Mathlib

/-!
Verification development for the django-upgrade rewriting engine
(src/django_upgrade/main.py, src/django_upgrade/data.py and the fixer
modules admin_allow_tags.py, format_html.py, psycopg2_to_psycopg3.py).

The Python source is shallowly embedded:
* the tokenize-rt token stream becomes `DU.Token` lists,
* the Python `ast` nodes used by the fixers become the inductive `DU.PyAst`,
* in-place list mutation becomes explicit list passing,
* code that can raise (`IndexError`, `SyntaxError`, `tokenize.TokenError`)
  returns `Option`, with `none` for the raised exception.

Members of the repository that are not part of the provided sources
(`django_upgrade.ast`, `django_upgrade.tokens`, and the external
`tokenize_rt` / `ast` libraries) are modelled from the specification and
marked `Modelled from the spec:` in their doc comments.
-/

namespace DU

/-- tokenize_rt `Offset`: a (line, utf8_byte_offset) source position,
line 1-based, column 0-based.  Used as the join key between the syntax
tree and the token stream. -/
structure Offset where
  line : Nat
  col : Nat
  deriving DecidableEq, Repr

/-- tokenize_rt `Token`: kind name, literal source text, starting offset. -/
structure Token where
  name : String
  src : String
  offset : Offset
  deriving DecidableEq, Repr

/-- tokenize_rt token-kind name for insignificant whitespace. -/
def UNIMPORTANT_WS : String := "UNIMPORTANT_WS"

/-- Modelled from the spec: `django_upgrade.tokens.DEDENT` (the module
`django_upgrade/tokens.py` is not among the provided sources) — the
token-kind name of the purely structural end-of-block marker. -/
def DEDENT : String := "DEDENT"

/-- `TokenFunc = Callable[[list[Token], int], None]` from data.py: an
edit-function invoked with the live token list and an anchor index.
Mutation becomes returning the new list; a raised `IndexError` becomes
`none`. -/
def TokenFunc : Type := List Token → Nat → Option (List Token)

/-- The `dict[Offset, list[TokenFunc]]` built by `visit` (a
`defaultdict(list)` filled by `ret[offset].append(token_func)`):
embedded as the flat list of (offset, edit-function) pairs in emission
order; per-offset lookup keeps that order, matching the append
semantics. -/
abbrev MMap : Type := List (Offset × TokenFunc)

/-- `callbacks.get(token.offset, ())` from main.py. -/
def MMap.get (m : MMap) (o : Offset) : List TokenFunc :=
  (m.filter (fun p => p.1 = o)).map (fun p => p.2)

/-- Run the queued edit-functions for one anchor in queued order
(`for callback in callbacks.get(token.offset, ()): callback(tokens, i)`).
A `none` from a callback (raised exception) aborts. -/
def runCallbacks (fs : List TokenFunc) (ts : List Token) (i : Nat) :
    Option (List Token) :=
  fs.foldlM (fun acc f => f acc i) ts

/-- The reverse edit-application loop of `apply_fixers` (main.py):

    for i, token in reversed_enumerate(tokens):
        if not token.src:
            continue
        for callback in callbacks.get(token.offset, ()):
            callback(tokens, i)

`reversed_enumerate` fixes the index range at the initial length and
re-reads `tokens[i]` from the live list; `applyLoopT cb (i+1) ts tr`
performs the iteration for index `i` and recurses downwards.  A read of
a no-longer-existing index (`IndexError`) or a failing callback yields
`none`.  Alongside the final token list the loop returns the trace of
anchor invocations: the pairs `(i, t)` — live index and live token —
at which a non-empty callback list was invoked. -/
def applyLoopT (cb : MMap) : Nat → List Token → List (Nat × Token) →
    Option (List Token) × List (Nat × Token)
  | 0, ts, tr => (some ts, tr)
  | i+1, ts, tr =>
    match ts[i]? with
    | none => (none, tr)
    | some t =>
      if t.src = "" then applyLoopT cb i ts tr
      else
        let tr2 := if (MMap.get cb t.offset).isEmpty then tr else tr ++ [(i, t)]
        match runCallbacks (MMap.get cb t.offset) ts i with
        | none => (none, tr2)
        | some ts2 => applyLoopT cb i ts2 tr2

/-- The edit-application loop without its instrumentation trace. -/
def applyLoop (cb : MMap) (n : Nat) (ts : List Token) : Option (List Token) :=
  (applyLoopT cb n ts []).1

/-- One step of `fixup_dedent_tokens`: the simultaneous assignment
`tokens[i], tokens[i + 1] = tokens[i + 1], tokens[i]`. -/
def swapAt (ts : List Token) (i : Nat) (a b : Token) : List Token :=
  (ts.set i b).set (i+1) a

/-- The body of `fixup_dedent_tokens` (main.py):

    for i, token in enumerate(tokens):
        if token.name == UNIMPORTANT_WS and tokens[i + 1].name == DEDENT:
            tokens[i], tokens[i + 1] = tokens[i + 1], tokens[i]

`enumerate` reads the live list and stops when the index reaches the live
length; since the body only swaps, the length is constant and the loop
performs exactly `tokens.length` iterations, so the remaining iteration
count serves as structural fuel.  The read `tokens[i + 1]` can raise
`IndexError` (modelled `none`); the short-circuit `and` only reaches it
when `tokens[i]` is an `UNIMPORTANT_WS` token. -/
def fixupGo : List Token → Nat → Nat → Option (List Token)
  | ts, _, 0 => some ts
  | ts, i, fuel+1 =>
    match ts[i]? with
    | none => some ts
    | some t =>
      if t.name = UNIMPORTANT_WS then
        match ts[i+1]? with
        | none => none
        | some t2 =>
          if t2.name = DEDENT then fixupGo (swapAt ts i t t2) (i+1) fuel
          else fixupGo ts (i+1) fuel
      else fixupGo ts (i+1) fuel

/-- `fixup_dedent_tokens(tokens)` from main.py. -/
def fixup_dedent_tokens (ts : List Token) : Option (List Token) :=
  fixupGo ts 0 ts.length

/-- Modelled from the spec: the position attributes `lineno`,
`col_offset`, `end_lineno`, `end_col_offset` that every located Python
`ast` node carries (the `ast` module is external to the sources). -/
structure Span where
  lineno : Nat
  col_offset : Nat
  end_lineno : Nat
  end_col_offset : Nat
  deriving DecidableEq, Repr

/-- The `Constant.value` payloads the fixers inspect: `str` constants
(format_html) and the identity-checked `True` (admin_allow_tags). -/
inductive PyConst where
  | str (s : String)
  | bool (b : Bool)
  | noneConst
  deriving DecidableEq, Repr

/-- The fragment of the Python `ast` node language that the provided
fixers and `visit` dispatch on, with each node's declared-order child
fields.  `importFrom` carries `module` (`None` for relative imports
without a module), the `alias` child nodes, and the relative-import
`level`; `name` and `attribute` carry their expression-context child
(`Load`/`Store`), which the traversal visits like any other node. -/
inductive PyAst where
  | module (body : List PyAst)
  | importFrom (sp : Span) (module? : Option String) (names : List PyAst) (level : Nat)
  | importStmt (sp : Span) (names : List PyAst)
  | aliasNode (sp : Span) (aname : String) (asname : Option String)
  | assign (sp : Span) (targets : List PyAst) (value : PyAst)
  | classDef (sp : Span) (cname : String) (bases : List PyAst)
      (keywords : List PyAst) (body : List PyAst) (decorators : List PyAst)
  | call (sp : Span) (func : PyAst) (args : List PyAst) (keywords : List PyAst)
  | nameNode (sp : Span) (id : String) (ctx : PyAst)
  | attributeNode (sp : Span) (value : PyAst) (attr : String) (ctx : PyAst)
  | constant (sp : Span) (value : PyConst)
  | exprStmt (sp : Span) (value : PyAst)
  | load
  | store

/-- The node kinds (`type(node)`) used as dispatch keys. -/
inductive Kind where
  | module | importFrom | importStmt | aliasNode | assign | classDef
  | call | nameNode | attributeNode | constant | exprStmt | load | store
  deriving DecidableEq, Repr

/-- `type(node)` as a dispatch key. -/
def kindOf : PyAst → Kind
  | .module _ => .module
  | .importFrom _ _ _ _ => .importFrom
  | .importStmt _ _ => .importStmt
  | .aliasNode _ _ _ => .aliasNode
  | .assign _ _ _ => .assign
  | .classDef _ _ _ _ _ _ => .classDef
  | .call _ _ _ _ => .call
  | .nameNode _ _ _ => .nameNode
  | .attributeNode _ _ _ _ => .attributeNode
  | .constant _ _ => .constant
  | .exprStmt _ _ => .exprStmt
  | .load => .load
  | .store => .store

/-- The child nodes pushed by `visit`'s traversal step, in the order in
which they are subsequently popped: iterating `reversed(node._fields)`
and, within a list field, `reversed(value)`, while appending to the
stack, makes the children come off the stack in declared field order
with list elements left to right.  Non-node field values (`module`,
`level`, identifier strings, `None`) are skipped by the
`isinstance` checks. -/
def childrenOf : PyAst → List PyAst
  | .module body => body
  | .importFrom _ _ names _ => names
  | .importStmt _ names => names
  | .aliasNode _ _ _ => []
  | .assign _ targets value => targets ++ [value]
  | .classDef _ _ bases keywords body decorators =>
      bases ++ keywords ++ body ++ decorators
  | .call _ func args keywords => func :: (args ++ keywords)
  | .nameNode _ _ ctx => [ctx]
  | .attributeNode _ value _ ctx => [value, ctx]
  | .constant _ _ => []
  | .exprStmt _ value => [value]
  | .load => []
  | .store => []

/-- Modelled from the spec: `django_upgrade.ast.ast_start_offset`
(module `django_upgrade/ast.py` is not among the provided sources) —
"a node's offset identifies the single token at which any edit anchored
to that node must be applied": the (lineno, col_offset) start position.
Nodes without a position (`Module`, contexts) never reach it; they map
to a dummy offset. -/
def ast_start_offset : PyAst → Offset
  | .importFrom sp _ _ _ => ⟨sp.lineno, sp.col_offset⟩
  | .importStmt sp _ => ⟨sp.lineno, sp.col_offset⟩
  | .aliasNode sp _ _ => ⟨sp.lineno, sp.col_offset⟩
  | .assign sp _ _ => ⟨sp.lineno, sp.col_offset⟩
  | .classDef sp _ _ _ _ _ => ⟨sp.lineno, sp.col_offset⟩
  | .call sp _ _ _ => ⟨sp.lineno, sp.col_offset⟩
  | .nameNode sp _ _ => ⟨sp.lineno, sp.col_offset⟩
  | .attributeNode sp _ _ _ => ⟨sp.lineno, sp.col_offset⟩
  | .constant sp _ => ⟨sp.lineno, sp.col_offset⟩
  | .exprStmt sp _ => ⟨sp.lineno, sp.col_offset⟩
  | _ => ⟨0, 0⟩

/-- The node's `(end_lineno, end_col_offset)` end position, used by the
token helpers to find the last token of a node. -/
def astEndPos : PyAst → Offset
  | .importFrom sp _ _ _ => ⟨sp.end_lineno, sp.end_col_offset⟩
  | .importStmt sp _ => ⟨sp.end_lineno, sp.end_col_offset⟩
  | .aliasNode sp _ _ => ⟨sp.end_lineno, sp.end_col_offset⟩
  | .assign sp _ _ => ⟨sp.end_lineno, sp.end_col_offset⟩
  | .classDef sp _ _ _ _ _ => ⟨sp.end_lineno, sp.end_col_offset⟩
  | .call sp _ _ _ => ⟨sp.end_lineno, sp.end_col_offset⟩
  | .nameNode sp _ _ => ⟨sp.end_lineno, sp.end_col_offset⟩
  | .attributeNode sp _ _ _ => ⟨sp.end_lineno, sp.end_col_offset⟩
  | .constant sp _ => ⟨sp.end_lineno, sp.end_col_offset⟩
  | .exprStmt sp _ => ⟨sp.end_lineno, sp.end_col_offset⟩
  | _ => ⟨0, 0⟩

/-- Python tuple comparison `a <= b` on `(major, minor)` version pairs:
lexicographic. -/
def versionLe (a b : Nat × Nat) : Bool :=
  a.1 < b.1 || (a.1 = b.1 && a.2 ≤ b.2)

/-- `Settings` (data.py): target version plus the enabled-fixer name
set computed from the registry and the optional `--only` / `--skip`
selections:

    self.enabled_fixers = {
        name for name in FIXERS
        if (only_fixers is None or name in only_fixers)
        and (skip_fixers is None or name not in skip_fixers)
    }
-/
structure Settings where
  target_version : Nat × Nat
  enabled_fixers : List String

/-- A Python `set[str]` under incremental `update`: list membership with
first-insertion order and no duplicates (the fixers only ever test
membership). -/
def setAdd (s : List String) (x : String) : List String :=
  if x ∈ s then s else s ++ [x]

/-- `set.update(iterable)`. -/
def setUpdate (s : List String) (xs : List String) : List String :=
  xs.foldl setAdd s

/-- `State` (data.py): per-file settings, filename, and the
`from_imports` mapping `DefaultDict[str, set[str]]`, embedded as a total
function defaulting to the empty set. -/
structure State where
  settings : Settings
  filename : String
  from_imports : String → List String

/-- `ASTFunc` (data.py): a fixer callback
`(State, node, parents) -> Iterable[(Offset, TokenFunc)]`. -/
def ASTFunc : Type := State → PyAst → List PyAst → List (Offset × TokenFunc)

/-- `Fixer` (data.py): name (the final component of the defining module
name), minimum target version, per-kind callback lists, optional
activation condition. -/
structure Fixer where
  name : String
  min_version : Nat × Nat
  ast_funcs : Kind → List ASTFunc
  condition : Option (State → Bool)

/-- `fixer.condition is None or fixer.condition(state)`. -/
def conditionHolds (f : Fixer) (st : State) : Bool :=
  match f.condition with
  | none => true
  | some c => c st

/-- The activation test applied to each registered fixer by
`get_ast_funcs` (data.py): enabled by settings, version gate
`fixer.min_version <= state.settings.target_version`, and the optional
condition. -/
def fixerActive (st : State) (settings : Settings) (f : Fixer) : Bool :=
  f.name ∈ settings.enabled_fixers &&
    (versionLe f.min_version st.settings.target_version && conditionHolds f st)

/-- The dispatch-table fold of `get_ast_funcs` over an explicit fixer
list (the registry `FIXERS.values()` in registration order):

    ast_funcs: ASTCallbackMapping = defaultdict(list)
    for fixer in FIXERS.values():
        if fixer.name not in settings.enabled_fixers:
            continue
        if fixer.min_version <= state.settings.target_version and (
            fixer.condition is None or fixer.condition(state)
        ):
            for type_, type_funcs in fixer.ast_funcs.items():
                ast_funcs[type_].extend(type_funcs)
    return ast_funcs
-/
def buildTable (fixers : List Fixer) (st : State) (settings : Settings) :
    Kind → List ASTFunc :=
  fixers.foldl
    (fun acc f =>
      if f.name ∈ settings.enabled_fixers then
        if versionLe f.min_version st.settings.target_version && conditionHolds f st
        then fun k => acc k ++ f.ast_funcs k
        else acc
      else acc)
    (fun _ => [])

/-- Lexicographic `<` on positions, as Python compares the tuples
`token.offset < (node.end_lineno, node.end_col_offset)`. -/
def offsetLt (a b : Offset) : Bool :=
  a.line < b.line || (a.line = b.line && a.col < b.col)

/-- Modelled from the spec: `django_upgrade.tokens.find` (module
`django_upgrade/tokens.py` is not among the provided sources) — advance
from index `i` to the next token with the given kind name (and, when
given, source text); running past the end of the list is an
`IndexError` (`none`).  The scan moves forward one index per step, so
the remaining list length bounds it. -/
def findGo (ts : List Token) (name : String) (src? : Option String) :
    Nat → Nat → Option Nat
  | _, 0 => none
  | i, fuel+1 =>
    match ts[i]? with
    | none => none
    | some t =>
      if t.name = name && (match src? with | none => true | some s => t.src = s)
      then some i
      else findGo ts name src? (i+1) fuel

/-- Modelled from the spec: `django_upgrade.tokens.find`. -/
def find (ts : List Token) (i : Nat) (name : String) (src? : Option String) :
    Option Nat :=
  findGo ts name src? i (ts.length + 1)

/-- Modelled from the spec: `django_upgrade.tokens.find_last_token` —
advance `j` from `i` while the token at `j` starts before the node's
end position, then return `j - 1`: the index of the last token of the
node. -/
def findLastGo (ts : List Token) (endPos : Offset) : Nat → Nat → Option Nat
  | _, 0 => none
  | j, fuel+1 =>
    match ts[j]? with
    | none => none
    | some t =>
      if offsetLt t.offset endPos then findLastGo ts endPos (j+1) fuel
      else some (j - 1)

/-- Modelled from the spec: `django_upgrade.tokens.find_last_token`. -/
def find_last_token (ts : List Token) (i : Nat) (node : PyAst) : Option Nat :=
  findLastGo ts (astEndPos node) i (ts.length + 1)

/-- tokenize_rt `NON_CODING_TOKENS`: token kinds that carry no code. -/
def NON_CODING_TOKENS : List String :=
  ["COMMENT", "ESCAPED_NL", "NL", "UNIMPORTANT_WS"]

/-- Modelled from the spec: `django_upgrade.tokens.alone_on_line` —
whether the tokens in `[start_idx, end_idx]` are alone on their line,
i.e. surrounded by non-coding tokens. -/
def alone_on_line (ts : List Token) (start_idx end_idx : Nat) : Bool :=
  match ts[start_idx - 1]?, ts[end_idx + 1]? with
  | some a, some b => a.name ∈ NON_CODING_TOKENS && b.name ∈ NON_CODING_TOKENS
  | _, _ => false

/-- Python `del tokens[a:b]` (slice indices clamp; an empty or reversed
range deletes nothing). -/
def delSlice (ts : List Token) (a b : Nat) : List Token :=
  ts.take a ++ ts.drop (max a b)

/-- Modelled from the spec: `django_upgrade.tokens.insert` — insert a
freshly fabricated code token with the given source text at index `i`
(`tokens.insert(i, Token(CODE, new_src))`). -/
def insertTok (ts : List Token) (i : Nat) (new_src : String) : List Token :=
  ts.take i ++ [⟨"CODE", new_src, ⟨0, 0⟩⟩] ++ ts.drop i

/-- Modelled from the spec: `django_upgrade.tokens.erase_node` — "the
assignment line is erased in full, including its newline": find the last
token of the node, extend the range over a trailing comment and the
trailing newline, extend it backwards over the indentation that
introduces the line, and delete the whole slice. -/
def erase_node (node : PyAst) : TokenFunc := fun ts i => do
  let j ← find_last_token ts i node
  let j := match ts[j+1]? with
    | some t => if t.name = "COMMENT" then j + 1 else j
    | none => j
  let j := match ts[j+1]? with
    | some t => if t.name = "NEWLINE" then j + 1 else j
    | none => j
  let i := match ts[i-1]? with
    | some t => if 1 ≤ i && (t.name = "INDENT" || t.name = UNIMPORTANT_WS)
                then i - 1 else i
    | none => i
  some (delSlice ts i (j+1))

/-- `rewrite_str_format` (fixers/format_html.py): locate the `.` and the
opening `(` of the `str.format(` call, locate the closing parenthesis as
the last token of the `str.format(...)` node (widening by one on each
side when it is alone on a line), delete the closing parenthesis range,
delete the `.format(` range, and insert `", "` where `.format(` began. -/
def rewrite_str_format (node : PyAst) : TokenFunc := fun ts i => do
  let open_start ← find ts i "OP" (some ".")
  let open_end ← find ts open_start "OP" (some "(")
  let cp ← find_last_token ts open_end node
  let (cp_start, cp_end) :=
    if alone_on_line ts cp cp then (cp - 1, cp + 1) else (cp, cp)
  let ts := delSlice ts cp_start (cp_end + 1)
  let ts := delSlice ts open_start (open_end + 1)
  some (insertTok ts open_start ", ")

/-- `visit_Call` (fixers/format_html.py): fires on a `format_html(...)`
call — with `format_html` imported from `django.utils.html` — whose
single positional argument (and no keywords) is a `str.format(...)`
call on a string constant; yields the call's start offset with
`rewrite_str_format` bound to the inner `str.format` call node. -/
def format_html_visit_Call : ASTFunc := fun state node _parents =>
  match node with
  | .call sp (.nameNode spN fid ctxN) [strFormat] [] =>
    match strFormat with
    | .call sp2 (.attributeNode spA (.constant spC cval) attr ctxA) fargs fkws =>
      if (state.from_imports "django.utils.html").contains "format_html"
          && fid == "format_html"
          && (match cval with | .str _ => true | _ => false)
          && attr == "format"
      then [(ast_start_offset (.call sp (.nameNode spN fid ctxN) [strFormat] []),
             rewrite_str_format
               (.call sp2 (.attributeNode spA (.constant spC cval) attr ctxA) fargs fkws))]
      else []
    | _ => []
  | _ => []

/-- `visit_Assign` (fixers/admin_allow_tags.py): fires on a single-target
assignment `<expr>.allow_tags = True` when `admin` was imported from
`django.contrib` or `django.contrib.gis`; yields the assignment's start
offset with `erase_node` bound to the assignment node. -/
def admin_allow_tags_visit_Assign : ASTFunc := fun state node _parents =>
  match node with
  | .assign sp [.attributeNode spA v attr ctxA] value =>
    if ((state.from_imports "django.contrib").contains "admin"
          || (state.from_imports "django.contrib.gis").contains "admin")
        && attr == "allow_tags"
        && (match value with | .constant _ (.bool true) => true | _ => false)
    then [(ast_start_offset (.assign sp [.attributeNode spA v attr ctxA] value),
           erase_node (.assign sp [.attributeNode spA v attr ctxA] value))]
    else []
  | _ => []

/-- `MODULE_MAP` (fixers/psycopg2_to_psycopg3.py). -/
def MODULE_MAP : List (String × String) := [("psycopg2", "psycopg")]

/-- The scan of `replace_module_name` (fixers/psycopg2_to_psycopg3.py):

    while i < len(tokens):
        if tokens[i].src == name:
            tokens[i] = tokens[i]._replace(src=new)
            break
        i += 1

The index grows by one per step, so the list length bounds the loop. -/
def replaceGo (nameStr new : String) : Nat → List Token → Nat → List Token
  | 0, ts, _ => ts
  | fuel+1, ts, i =>
    match ts[i]? with
    | none => ts
    | some t =>
      if t.src = nameStr then ts.set i { t with src := new }
      else replaceGo nameStr new fuel ts (i+1)

/-- `replace_module_name` (fixers/psycopg2_to_psycopg3.py). -/
def replace_module_name (nameStr new : String) : TokenFunc := fun ts i =>
  some (replaceGo nameStr new (ts.length + 1) ts i)

/-- `visit_Import` (fixers/psycopg2_to_psycopg3.py), registered for both
`ast.Import` and `ast.ImportFrom`: for a plain import, yield one edit
per alias whose name is in `MODULE_MAP`; for a from-import, yield one
edit when the module is in `MODULE_MAP`. -/
def psycopg2_visit_Import : ASTFunc := fun _state node _parents =>
  match node with
  | .importStmt sp names =>
    names.flatMap (fun a =>
      match a with
      | .aliasNode _ an _ =>
        match MODULE_MAP.lookup an with
        | some newName =>
            [(ast_start_offset (.importStmt sp names), replace_module_name an newName)]
        | none => []
      | _ => [])
  | .importFrom sp module? names level =>
    match module? with
    | some m =>
      match MODULE_MAP.lookup m with
      | some newName =>
          [(ast_start_offset (.importFrom sp module? names level),
            replace_module_name m newName)]
      | none => []
    | none => []
  | _ => []

/-- The `admin_allow_tags` fixer: `Fixer(__name__, min_version=(2, 0))`
with `visit_Assign` registered for `ast.Assign`. -/
def admin_allow_tags_fixer : Fixer :=
  ⟨"admin_allow_tags", (2, 0),
   fun k => if k = .assign then [admin_allow_tags_visit_Assign] else [], none⟩

/-- The `format_html` fixer: `Fixer(__name__, min_version=(5, 0))` with
`visit_Call` registered for `ast.Call`. -/
def format_html_fixer : Fixer :=
  ⟨"format_html", (5, 0),
   fun k => if k = .call then [format_html_visit_Call] else [], none⟩

/-- The `psycopg2_to_psycopg3` fixer: `Fixer(__name__, min_version=(3, 0))`
with `visit_Import` registered for `ast.Import` and `ast.ImportFrom`. -/
def psycopg2_to_psycopg3_fixer : Fixer :=
  ⟨"psycopg2_to_psycopg3", (3, 0),
   fun k => if k = .importStmt || k = .importFrom then [psycopg2_visit_Import] else [],
   none⟩

/-- The registry `FIXERS` after `_import_fixers()` walked the fixer
package (modules are imported in alphabetical name order, and each
module's `Fixer(...)` constructor registers itself). -/
def FIXERS : List Fixer :=
  [admin_allow_tags_fixer, format_html_fixer, psycopg2_to_psycopg3_fixer]

/-- The `Settings.__init__` enabled-fixer computation, iterating the
registry names. -/
def Settings.make (tv : Nat × Nat) (only? skip? : Option (List String)) : Settings :=
  ⟨tv, (FIXERS.map (fun f => f.name)).filter (fun n =>
      (match only? with | none => true | some o => o.contains n) &&
      (match skip? with | none => true | some s => !(s.contains n)))⟩

/-- `get_ast_funcs(state, settings)` (data.py): the dispatch table over
the registry. -/
def get_ast_funcs (st : State) (settings : Settings) : Kind → List ASTFunc :=
  buildTable FIXERS st settings

/-- The plain (non-aliased, non-wildcard) names of an import statement:
`name.name for name in node.names if name.asname is None and name.name != "*"`. -/
def plainNames (names : List PyAst) : List String :=
  names.filterMap (fun a =>
    match a with
    | .aliasNode _ an none => if an ≠ "*" then some an else none
    | _ => none)

/-- Python `str.startswith(p)`, embedded on the character list (the
kernel cannot reduce `String.startsWith`, which goes through byte-level
substring primitives; this is extensionally the same test). -/
def strStartsWith (s p : String) : Bool := p.data.isPrefixOf s.data

/-- The import-tracking step of `visit` (data.py):

    if (isinstance(node, ast.ImportFrom) and node.level == 0
            and (node.module is not None
                 and (node.module.startswith("django.")
                      or node.module in ("django", "unittest")))):
        state.from_imports[node.module].update(
            name.name for name in node.names
            if name.asname is None and name.name != "*")
-/
def recordFI (fi : String → List String) (node : PyAst) : String → List String :=
  match node with
  | .importFrom _ module? names level =>
    match module? with
    | some m =>
      if level = 0 && (strStartsWith m "django." || m = "django" || m = "unittest")
      then fun m2 => if m2 = m then setUpdate (fi m) (plainNames names) else fi m2
      else fi
    | none => fi
  | _ => fi

/-- The per-node content of the import-tracking step, as a predicate:
`recordsInto n m x` holds when processing node `n` adds the name `x`
to the imported-name set of module `m` — `n` is an absolute
(`level = 0`) from-import of a tracked module (`django`, `django.*` or
`unittest`), `m` is that module, and `x` is one of its non-aliased,
non-wildcard names.  Nesting plays no role. -/
def recordsInto (n : PyAst) (m x : String) : Prop :=
  match n with
  | .importFrom _ module? names level =>
    match module? with
    | some mod =>
      level = 0 ∧
        (strStartsWith mod "django." || mod = "django" || mod = "unittest")
          = true ∧
        mod = m ∧ x ∈ plainNames names
    | none => False
  | _ => False

/-- The evolving accumulator of `visit`: the collected
(offset, edit-function) pairs `ret`, the `from_imports` state, and an
instrumentation trace recording, for each processed node, the
`from_imports` snapshot its callbacks received. -/
structure VisitAcc where
  ret : MMap
  fi : String → List String
  trace : List (PyAst × (String → List String))

/-- Processing of one popped node in `visit`'s while-loop: run every
callback registered for the node's kind on the current state, append the
yielded (offset, edit-function) pairs in emission order, then perform
the import-tracking step. -/
def visitStep (funcs : Kind → List ASTFunc) (settings : Settings) (fn : String)
    (acc : VisitAcc) (node : PyAst) (parents : List PyAst) : VisitAcc :=
  let st : State := ⟨settings, fn, acc.fi⟩
  let pairs := (funcs (kindOf node)).flatMap (fun f => f st node parents)
  { ret := acc.ret ++ pairs
    fi := recordFI acc.fi node
    trace := acc.trace ++ [(node, acc.fi)] }

theorem sum_map_sizeOf_le (l : List PyAst) :
    (l.map (fun c => sizeOf c)).sum + 1 ≤ sizeOf l := by
  induction l with
  | nil => simp
  | cons a t ih => simp at *; omega

theorem children_sum_lt (n : PyAst) :
    ((childrenOf n).map (fun c => sizeOf c)).sum < sizeOf n := by
  cases n with
  | module body => have := sum_map_sizeOf_le body; simp [childrenOf]; omega
  | importFrom sp m names lvl =>
      have := sum_map_sizeOf_le names; simp [childrenOf]; omega
  | importStmt sp names =>
      have := sum_map_sizeOf_le names; simp [childrenOf]; omega
  | aliasNode sp an asn => simp [childrenOf]
  | assign sp targets value =>
      have := sum_map_sizeOf_le targets; simp [childrenOf]; omega
  | classDef sp c bases kws body decs =>
      have h1 := sum_map_sizeOf_le bases
      have h2 := sum_map_sizeOf_le kws
      have h3 := sum_map_sizeOf_le body
      have h4 := sum_map_sizeOf_le decs
      simp [childrenOf]; omega
  | call sp func args kws =>
      have h1 := sum_map_sizeOf_le args
      have h2 := sum_map_sizeOf_le kws
      simp [childrenOf]; omega
  | nameNode sp id ctx => simp [childrenOf]
  | attributeNode sp v attr ctx => simp [childrenOf]; omega
  | constant sp v => simp [childrenOf]
  | exprStmt sp v => simp [childrenOf]
  | load => simp [childrenOf]
  | store => simp [childrenOf]

theorem stack_sum_append (l : List PyAst) (ps : List PyAst)
    (rest : List (PyAst × List PyAst)) :
    (((l.map (fun c => (c, ps))) ++ rest).map (fun q => sizeOf q.1)).sum =
      (l.map (fun c => sizeOf c)).sum + (rest.map (fun q => sizeOf q.1)).sum := by
  induction l with
  | nil => simp
  | cons a t ih => simp at *; omega

/-- The explicit-stack pre-order while-loop of `visit` (data.py):

    nodes: list[tuple[ast.AST, tuple[ast.AST, ...]]] = [(tree, ())]
    ret = defaultdict(list)
    while nodes:
        node, parents = nodes.pop()
        ... callbacks, import tracking ...
        subparents = parents + (node,)
        ... push children ...

(the pushes, iterating reversed fields and reversed lists against the
pop-from-the-end stack discipline, are `childrenOf` in pop order; the
Lean list head plays the role of the Python list end). -/
def visitLoop (funcs : Kind → List ASTFunc) (settings : Settings) (fn : String) :
    List (PyAst × List PyAst) → VisitAcc → VisitAcc
  | [], acc => acc
  | (node, parents) :: rest, acc =>
    visitLoop funcs settings fn
      (((childrenOf node).map (fun c => (c, parents ++ [node]))) ++ rest)
      (visitStep funcs settings fn acc node parents)
termination_by st => (st.map (fun q => sizeOf q.1)).sum
decreasing_by
  rw [stack_sum_append]
  have := children_sum_lt node
  simp
  omega

/-- `visit(tree, settings, filename)` (data.py) together with its final
state and trace: build the initial `State` with empty `from_imports`,
build the dispatch table once, and run the traversal loop from the
root. -/
def visitFull (tree : PyAst) (settings : Settings) (fn : String) : VisitAcc :=
  let state : State := ⟨settings, fn, fun _ => []⟩
  let ast_funcs := get_ast_funcs state settings
  visitLoop ast_funcs settings fn [(tree, [])] ⟨[], fun _ => [], []⟩

/-- `visit`'s return value: the offset-indexed edit-function multimap. -/
def visit (tree : PyAst) (settings : Settings) (fn : String) : MMap :=
  (visitFull tree settings fn).ret

/-- Modelled from the spec: the Parse Layer (`django_upgrade.ast.ast_parse`
and tokenize_rt `src_to_tokens` are external to the provided sources) —
`parse(text) -> tree` failing with a syntax error (`none`), and
`tokenize(text) -> tokens` failing with a tokenize error (`none`).
`apply_fixers` is proved against an arbitrary such layer. -/
structure ParseLayer where
  ast_parse : String → Option PyAst
  src_to_tokens : String → Option (List Token)

/-- Modelled from the spec: tokenize_rt `tokens_to_src` — the total
serializer flattening the token sequence back into text by
concatenating every token's source text. -/
def tokens_to_src (ts : List Token) : String :=
  ts.foldl (fun acc t => acc ++ t.src) ""

/-- `apply_fixers(contents_text, settings, filename)` (main.py):

    try:
        ast_obj = ast_parse(contents_text)
    except SyntaxError:
        return contents_text
    callbacks = visit(ast_obj, settings, filename)
    if not callbacks:
        return contents_text
    try:
        tokens = src_to_tokens(contents_text)
    except tokenize.TokenError:
        return contents_text
    fixup_dedent_tokens(tokens)
    for i, token in reversed_enumerate(tokens): ...
    return tokens_to_src(tokens)

An uncaught exception escaping `fixup_dedent_tokens` or the edit loop
(an `IndexError`, or one raised inside a rule callback) propagates, so
the embedding returns `none` in that case. -/
def apply_fixers (layer : ParseLayer) (settings : Settings) (fn : String)
    (contents_text : String) : Option String :=
  match layer.ast_parse contents_text with
  | none => some contents_text
  | some ast_obj =>
    let callbacks := visit ast_obj settings fn
    if callbacks.isEmpty then some contents_text
    else
      match layer.src_to_tokens contents_text with
      | none => some contents_text
      | some tokens =>
        match fixup_dedent_tokens tokens with
        | none => none
        | some tokens =>
          match applyLoop callbacks tokens.length tokens with
          | none => none
          | some tokens => some (tokens_to_src tokens)

mutual
/-- The pre-order traversal of `visit`, written by structural recursion:
process the node, then its `childrenOf` children left to right with the
node appended to the ancestor chain.  `visitLoop_eq_foldS` proves it
equal to the explicit-stack loop. -/
def visitS (F : Kind → List ASTFunc) (settings : Settings) (fn : String) :
    PyAst → List PyAst → VisitAcc → VisitAcc
  | .module body, ps, acc =>
      visitSL F settings fn body (ps ++ [.module body])
        (visitStep F settings fn acc (.module body) ps)
  | .importFrom sp m names lvl, ps, acc =>
      visitSL F settings fn names (ps ++ [.importFrom sp m names lvl])
        (visitStep F settings fn acc (.importFrom sp m names lvl) ps)
  | .importStmt sp names, ps, acc =>
      visitSL F settings fn names (ps ++ [.importStmt sp names])
        (visitStep F settings fn acc (.importStmt sp names) ps)
  | .aliasNode sp an asn, ps, acc =>
      visitStep F settings fn acc (.aliasNode sp an asn) ps
  | .assign sp targets value, ps, acc =>
      visitS F settings fn value (ps ++ [.assign sp targets value])
        (visitSL F settings fn targets (ps ++ [.assign sp targets value])
          (visitStep F settings fn acc (.assign sp targets value) ps))
  | .classDef sp c bases kws body decs, ps, acc =>
      visitSL F settings fn decs (ps ++ [.classDef sp c bases kws body decs])
        (visitSL F settings fn body (ps ++ [.classDef sp c bases kws body decs])
          (visitSL F settings fn kws (ps ++ [.classDef sp c bases kws body decs])
            (visitSL F settings fn bases (ps ++ [.classDef sp c bases kws body decs])
              (visitStep F settings fn acc (.classDef sp c bases kws body decs) ps))))
  | .call sp func args kws, ps, acc =>
      visitSL F settings fn kws (ps ++ [.call sp func args kws])
        (visitSL F settings fn args (ps ++ [.call sp func args kws])
          (visitS F settings fn func (ps ++ [.call sp func args kws])
            (visitStep F settings fn acc (.call sp func args kws) ps)))
  | .nameNode sp id ctx, ps, acc =>
      visitS F settings fn ctx (ps ++ [.nameNode sp id ctx])
        (visitStep F settings fn acc (.nameNode sp id ctx) ps)
  | .attributeNode sp v attr ctx, ps, acc =>
      visitS F settings fn ctx (ps ++ [.attributeNode sp v attr ctx])
        (visitS F settings fn v (ps ++ [.attributeNode sp v attr ctx])
          (visitStep F settings fn acc (.attributeNode sp v attr ctx) ps))
  | .constant sp v, ps, acc =>
      visitStep F settings fn acc (.constant sp v) ps
  | .exprStmt sp v, ps, acc =>
      visitS F settings fn v (ps ++ [.exprStmt sp v])
        (visitStep F settings fn acc (.exprStmt sp v) ps)
  | .load, ps, acc => visitStep F settings fn acc .load ps
  | .store, ps, acc => visitStep F settings fn acc .store ps
termination_by structural n _x _y => n

/-- Traversal of a child list, left to right. -/
def visitSL (F : Kind → List ASTFunc) (settings : Settings) (fn : String) :
    List PyAst → List PyAst → VisitAcc → VisitAcc
  | [], _, acc => acc
  | n :: rest, ps, acc =>
      visitSL F settings fn rest ps (visitS F settings fn n ps acc)
termination_by structural l _x _y => l
end

theorem visitSL_append (F : Kind → List ASTFunc) (settings : Settings)
    (fn : String) (a b : List PyAst) (ps : List PyAst) (acc : VisitAcc) :
    visitSL F settings fn (a ++ b) ps acc =
      visitSL F settings fn b ps (visitSL F settings fn a ps acc) := by
  induction a generalizing acc with
  | nil => simp [visitSL]
  | cons x t ih => simp [visitSL, ih]

theorem visitSL_foldl (F : Kind → List ASTFunc) (settings : Settings)
    (fn : String) (l : List PyAst) (ps : List PyAst) (acc : VisitAcc) :
    visitSL F settings fn l ps acc =
      l.foldl (fun a c => visitS F settings fn c ps a) acc := by
  induction l generalizing acc with
  | nil => simp [visitSL]
  | cons x t ih => simp [visitSL, ih]

theorem visitS_eq (F : Kind → List ASTFunc) (settings : Settings) (fn : String)
    (n : PyAst) (ps : List PyAst) (acc : VisitAcc) :
    visitS F settings fn n ps acc =
      visitSL F settings fn (childrenOf n) (ps ++ [n])
        (visitStep F settings fn acc n ps) := by
  cases n <;> simp [visitS, visitSL, childrenOf, visitSL_append]

theorem visitLoop_eq_foldS (F : Kind → List ASTFunc) (settings : Settings)
    (fn : String) (stack : List (PyAst × List PyAst)) (acc : VisitAcc) :
    visitLoop F settings fn stack acc =
      stack.foldl (fun a q => visitS F settings fn q.1 q.2 a) acc := by
  induction stack, acc using visitLoop.induct F settings fn with
  | case1 acc => simp [visitLoop]
  | case2 node parents rest acc ih =>
    rw [visitLoop, ih]
    simp [List.foldl_append, List.foldl_map]
    rw [← visitSL_foldl, ← visitS_eq]

/-- `visit` through the structural traversal. -/
theorem visitFull_eq_visitS (tree : PyAst) (settings : Settings) (fn : String) :
    visitFull tree settings fn =
      visitS (get_ast_funcs ⟨settings, fn, fun _ => []⟩ settings) settings fn
        tree [] ⟨[], fun _ => [], []⟩ := by
  unfold visitFull
  rw [visitLoop_eq_foldS]
  simp

mutual
/-- The pre-order node sequence of a tree: the node, then the pre-order
sequences of its children. -/
def preorder : PyAst → List PyAst
  | .module body => .module body :: preorderL body
  | .importFrom sp m names lvl =>
      .importFrom sp m names lvl :: preorderL names
  | .importStmt sp names => .importStmt sp names :: preorderL names
  | .aliasNode sp an asn => [.aliasNode sp an asn]
  | .assign sp targets value =>
      .assign sp targets value :: (preorderL targets ++ preorder value)
  | .classDef sp c bases kws body decs =>
      .classDef sp c bases kws body decs ::
        (preorderL bases ++ preorderL kws ++ preorderL body ++ preorderL decs)
  | .call sp func args kws =>
      .call sp func args kws :: (preorder func ++ preorderL args ++ preorderL kws)
  | .nameNode sp id ctx => .nameNode sp id ctx :: preorder ctx
  | .attributeNode sp v attr ctx =>
      .attributeNode sp v attr ctx :: (preorder v ++ preorder ctx)
  | .constant sp v => [.constant sp v]
  | .exprStmt sp v => .exprStmt sp v :: preorder v
  | .load => [.load]
  | .store => [.store]
termination_by structural n => n

/-- Pre-order sequence of a node list. -/
def preorderL : List PyAst → List PyAst
  | [] => []
  | n :: rest => preorder n ++ preorderL rest
termination_by structural l => l
end

theorem preorderL_append (a b : List PyAst) :
    preorderL (a ++ b) = preorderL a ++ preorderL b := by
  induction a with
  | nil => simp [preorderL]
  | cons x t ih => simp [preorderL, ih]

theorem preorder_eq (n : PyAst) :
    preorder n = n :: preorderL (childrenOf n) := by
  cases n <;> simp [preorder, preorderL, childrenOf, preorderL_append]

/-- The `format_html` scenario input text
`"from django.utils.html import format_html\nhtml = format_html(\"Hello, {}!\".format(name))\n"`. -/
def c5Input : String :=
  "from django.utils.html import format_html\nhtml = format_html(\"Hello, \x7b\x7d!\".format(name))\n"

/-- The `format_html` scenario expected output
`"from django.utils.html import format_html\nhtml = format_html(\"Hello, {}!\", name)\n"`. -/
def c5Expected : String :=
  "from django.utils.html import format_html\nhtml = format_html(\"Hello, \x7b\x7d!\", name)\n"

/-- The inner `"Hello, {}!".format(name)` call of the scenario. -/
def c5CallInner : PyAst :=
  .call ⟨2, 19, 2, 44⟩
    (.attributeNode ⟨2, 19, 2, 38⟩
      (.constant ⟨2, 19, 2, 31⟩ (.str "Hello, \x7b\x7d!")) "format" .load)
    [.nameNode ⟨2, 39, 2, 43⟩ "name" .load] []

/-- Modelled from the spec: the syntax tree the Parse Layer produces for
`c5Input` (CPython `ast.parse` node shapes and positions). -/
def c5Tree : PyAst :=
  .module
    [.importFrom ⟨1, 0, 1, 41⟩ (some "django.utils.html")
       [.aliasNode ⟨1, 30, 1, 41⟩ "format_html" none] 0,
     .assign ⟨2, 0, 2, 45⟩ [.nameNode ⟨2, 0, 2, 4⟩ "html" .store]
       (.call ⟨2, 7, 2, 45⟩ (.nameNode ⟨2, 7, 2, 18⟩ "format_html" .load)
         [c5CallInner] [])]

/-- Modelled from the spec: the token stream the Parse Layer produces
for `c5Input` (CPython `tokenize` via tokenize_rt; the encoding
pseudo-token is omitted). -/
def c5Tokens : List Token :=
  [⟨"NAME", "from", ⟨1, 0⟩⟩,
   ⟨"UNIMPORTANT_WS", " ", ⟨1, 4⟩⟩,
   ⟨"NAME", "django", ⟨1, 5⟩⟩,
   ⟨"OP", ".", ⟨1, 11⟩⟩,
   ⟨"NAME", "utils", ⟨1, 12⟩⟩,
   ⟨"OP", ".", ⟨1, 17⟩⟩,
   ⟨"NAME", "html", ⟨1, 18⟩⟩,
   ⟨"UNIMPORTANT_WS", " ", ⟨1, 22⟩⟩,
   ⟨"NAME", "import", ⟨1, 23⟩⟩,
   ⟨"UNIMPORTANT_WS", " ", ⟨1, 29⟩⟩,
   ⟨"NAME", "format_html", ⟨1, 30⟩⟩,
   ⟨"NEWLINE", "\n", ⟨1, 41⟩⟩,
   ⟨"NAME", "html", ⟨2, 0⟩⟩,
   ⟨"UNIMPORTANT_WS", " ", ⟨2, 4⟩⟩,
   ⟨"OP", "=", ⟨2, 5⟩⟩,
   ⟨"UNIMPORTANT_WS", " ", ⟨2, 6⟩⟩,
   ⟨"NAME", "format_html", ⟨2, 7⟩⟩,
   ⟨"OP", "(", ⟨2, 18⟩⟩,
   ⟨"STRING", "\"Hello, \x7b\x7d!\"", ⟨2, 19⟩⟩,
   ⟨"OP", ".", ⟨2, 31⟩⟩,
   ⟨"NAME", "format", ⟨2, 32⟩⟩,
   ⟨"OP", "(", ⟨2, 38⟩⟩,
   ⟨"NAME", "name", ⟨2, 39⟩⟩,
   ⟨"OP", ")", ⟨2, 43⟩⟩,
   ⟨"OP", ")", ⟨2, 44⟩⟩,
   ⟨"NEWLINE", "\n", ⟨2, 45⟩⟩,
   ⟨"ENDMARKER", "", ⟨3, 0⟩⟩]

/-- The Parse Layer for the `format_html` scenario. -/
def c5Layer : ParseLayer := ⟨fun _ => some c5Tree, fun _ => some c5Tokens⟩

/-- The `admin_allow_tags` scenario input text
`"from django.contrib import admin\nclass A:\n    f.allow_tags = True\n"`. -/
def c6Input : String :=
  "from django.contrib import admin\nclass A:\n    f.allow_tags = True\n"

/-- The `admin_allow_tags` scenario expected output. -/
def c6Expected : String := "from django.contrib import admin\nclass A:\n"

/-- The `f.allow_tags = True` assignment of the scenario. -/
def c6Assign : PyAst :=
  .assign ⟨3, 4, 3, 23⟩
    [.attributeNode ⟨3, 4, 3, 16⟩ (.nameNode ⟨3, 4, 3, 5⟩ "f" .load)
       "allow_tags" .store]
    (.constant ⟨3, 19, 3, 23⟩ (.bool true))

/-- Modelled from the spec: the syntax tree the Parse Layer produces for
`c6Input`. -/
def c6Tree : PyAst :=
  .module
    [.importFrom ⟨1, 0, 1, 32⟩ (some "django.contrib")
       [.aliasNode ⟨1, 27, 1, 32⟩ "admin" none] 0,
     .classDef ⟨2, 0, 3, 23⟩ "A" [] [] [c6Assign] []]

/-- Modelled from the spec: the token stream the Parse Layer produces
for `c6Input`. -/
def c6Tokens : List Token :=
  [⟨"NAME", "from", ⟨1, 0⟩⟩,
   ⟨"UNIMPORTANT_WS", " ", ⟨1, 4⟩⟩,
   ⟨"NAME", "django", ⟨1, 5⟩⟩,
   ⟨"OP", ".", ⟨1, 11⟩⟩,
   ⟨"NAME", "contrib", ⟨1, 12⟩⟩,
   ⟨"UNIMPORTANT_WS", " ", ⟨1, 19⟩⟩,
   ⟨"NAME", "import", ⟨1, 20⟩⟩,
   ⟨"UNIMPORTANT_WS", " ", ⟨1, 26⟩⟩,
   ⟨"NAME", "admin", ⟨1, 27⟩⟩,
   ⟨"NEWLINE", "\n", ⟨1, 32⟩⟩,
   ⟨"NAME", "class", ⟨2, 0⟩⟩,
   ⟨"UNIMPORTANT_WS", " ", ⟨2, 5⟩⟩,
   ⟨"NAME", "A", ⟨2, 6⟩⟩,
   ⟨"OP", ":", ⟨2, 7⟩⟩,
   ⟨"NEWLINE", "\n", ⟨2, 8⟩⟩,
   ⟨"INDENT", "    ", ⟨3, 0⟩⟩,
   ⟨"NAME", "f", ⟨3, 4⟩⟩,
   ⟨"OP", ".", ⟨3, 5⟩⟩,
   ⟨"NAME", "allow_tags", ⟨3, 6⟩⟩,
   ⟨"UNIMPORTANT_WS", " ", ⟨3, 16⟩⟩,
   ⟨"OP", "=", ⟨3, 17⟩⟩,
   ⟨"UNIMPORTANT_WS", " ", ⟨3, 18⟩⟩,
   ⟨"NAME", "True", ⟨3, 19⟩⟩,
   ⟨"NEWLINE", "\n", ⟨3, 23⟩⟩,
   ⟨"DEDENT", "", ⟨4, 0⟩⟩,
   ⟨"ENDMARKER", "", ⟨4, 0⟩⟩]

/-- The Parse Layer for the `admin_allow_tags` scenario. -/
def c6Layer : ParseLayer := ⟨fun _ => some c6Tree, fun _ => some c6Tokens⟩

/-- The per-file core of `fix_file` (main.py) after a successful UTF-8
decode: apply the fixers, and report the new text together with the
return code —

    if exit_zero_even_if_changed:
        return 0
    return contents_text != contents_text_orig

(the rewritten text is written back only when it differs, so "new text
equals old text" is exactly "no rewrite"). -/
def fixFileCore (layer : ParseLayer) (settings : Settings) (fn : String)
    (exit_zero_even_if_changed : Bool) (contents_text : String) :
    Option (String × Nat) :=
  match apply_fixers layer settings fn contents_text with
  | none => none
  | some new =>
    some (new,
      if exit_zero_even_if_changed then 0
      else if new ≠ contents_text then 1 else 0)

/-- The dispatch table `get_ast_funcs` produces when all three fixers
are enabled and active (target version at least (5, 0)). -/
def tableAll : Kind → List ASTFunc := fun k =>
  if k = .assign then [admin_allow_tags_visit_Assign]
  else if k = .call then [format_html_visit_Call]
  else if k = .importStmt || k = .importFrom then [psycopg2_visit_Import]
  else []

/-- The dispatch table for target versions in [(2, 0), (3, 0)): only
`admin_allow_tags` is active. -/
def table20 : Kind → List ASTFunc := fun k =>
  if k = .assign then [admin_allow_tags_visit_Assign] else []

/-- The dispatch table for target versions in [(3, 0), (5, 0)):
`admin_allow_tags` and `psycopg2_to_psycopg3` are active. -/
def table30 : Kind → List ASTFunc := fun k =>
  if k = .assign then [admin_allow_tags_visit_Assign]
  else if k = .importStmt || k = .importFrom then [psycopg2_visit_Import]
  else []

/-- The edit-function family of the reverse-order independence property:
an edit that, invoked at anchor index `i`, deletes the `k`-token span
starting `d` tokens at or after its anchor
(`del tokens[i + d : i + d + k]`). -/
def deleteSpanEdit (d k : Nat) : TokenFunc := fun ts i =>
  some (delSlice ts (i + d) (i + d + k))

/-! ### General lemmas about the dispatch table and the driver -/

theorem versionLe_trans (a b v : Nat × Nat) (h1 : versionLe a b = true)
    (h2 : versionLe b v = true) : versionLe a v = true := by
  simp [versionLe] at *
  omega

theorem enabled_make (v : Nat × Nat) :
    (Settings.make v none none).enabled_fixers =
      ["admin_allow_tags", "format_html", "psycopg2_to_psycopg3"] := rfl

theorem target_make (v : Nat × Nat) (o s : Option (List String)) :
    (Settings.make v o s).target_version = v := rfl

/-- `visit` through the structural traversal, at the top level. -/
theorem visit_eq_visitS (tree : PyAst) (settings : Settings) (fn : String) :
    visit tree settings fn =
      (visitS (get_ast_funcs ⟨settings, fn, fun _ => []⟩ settings) settings fn
        tree [] ⟨[], fun _ => [], []⟩).ret :=
  congrArg VisitAcc.ret (visitFull_eq_visitS tree settings fn)

/-- At target version (5, 0) or higher with default settings, the
dispatch table contains all three fixers. -/
theorem tableAll_eq (v : Nat × Nat) (fn : String) (hv : versionLe (5, 0) v = true) :
    get_ast_funcs ⟨Settings.make v none none, fn, fun _ => []⟩
      (Settings.make v none none) = tableAll := by
  have h2 : versionLe (2, 0) v = true := versionLe_trans _ (5, 0) _ (by decide) hv
  have h3 : versionLe (3, 0) v = true := versionLe_trans _ (5, 0) _ (by decide) hv
  funext k
  simp only [get_ast_funcs, buildTable, FIXERS, List.foldl_cons, List.foldl_nil,
    admin_allow_tags_fixer, format_html_fixer, psycopg2_to_psycopg3_fixer,
    enabled_make, conditionHolds, target_make, hv, h2, h3]
  simp only [eq_self_iff_true, if_true, List.mem_cons, List.mem_singleton,
    String.reduceEq, or_false, or_true, true_or, if_pos]
  simp only [Bool.and_self, if_true, List.nil_append]
  cases k <;> rfl

/-- For target versions in [(2, 0), (3, 0)) with default settings, only
`admin_allow_tags` is in the dispatch table. -/
theorem table20_eq (v : Nat × Nat) (fn : String) (h2 : versionLe (2, 0) v = true)
    (h3 : versionLe (3, 0) v = false) (h5 : versionLe (5, 0) v = false) :
    get_ast_funcs ⟨Settings.make v none none, fn, fun _ => []⟩
      (Settings.make v none none) = table20 := by
  funext k
  simp only [get_ast_funcs, buildTable, FIXERS, List.foldl_cons, List.foldl_nil,
    admin_allow_tags_fixer, format_html_fixer, psycopg2_to_psycopg3_fixer,
    enabled_make, conditionHolds, target_make, h2, h3, h5]
  simp only [eq_self_iff_true, if_true, List.mem_cons, List.mem_singleton,
    String.reduceEq, or_false, or_true, true_or, if_pos]
  simp only [Bool.and_self, Bool.false_and, Bool.and_false, Bool.false_eq_true,
    if_true, if_false, List.nil_append]
  cases k <;> rfl

/-- For target versions in [(3, 0), (5, 0)) with default settings,
`admin_allow_tags` and `psycopg2_to_psycopg3` are in the dispatch
table. -/
theorem table30_eq (v : Nat × Nat) (fn : String) (h2 : versionLe (2, 0) v = true)
    (h3 : versionLe (3, 0) v = true) (h5 : versionLe (5, 0) v = false) :
    get_ast_funcs ⟨Settings.make v none none, fn, fun _ => []⟩
      (Settings.make v none none) = table30 := by
  funext k
  simp only [get_ast_funcs, buildTable, FIXERS, List.foldl_cons, List.foldl_nil,
    admin_allow_tags_fixer, format_html_fixer, psycopg2_to_psycopg3_fixer,
    enabled_make, conditionHolds, target_make, h2, h3, h5]
  simp only [eq_self_iff_true, if_true, List.mem_cons, List.mem_singleton,
    String.reduceEq, or_false, or_true, true_or, if_pos]
  simp only [Bool.and_self, Bool.false_and, Bool.and_false, Bool.false_eq_true,
    if_true, if_false, List.nil_append]
  cases k <;> rfl

/-- Unfolding of `apply_fixers` when parsing and tokenizing succeed and
the collected callback map is non-empty. -/
theorem apply_fixers_unfold (layer : ParseLayer) (S : Settings) (fn text : String)
    (tree : PyAst) (tokens : List Token)
    (hp : layer.ast_parse text = some tree)
    (ht : layer.src_to_tokens text = some tokens)
    (hne : (visit tree S fn).isEmpty = false) :
    apply_fixers layer S fn text =
      match fixup_dedent_tokens tokens with
      | none => none
      | some toks2 =>
        match applyLoop (visit tree S fn) toks2.length toks2 with
        | none => none
        | some toks3 => some (tokens_to_src toks3) := by
  unfold apply_fixers
  rw [hp]
  simp only [ht, hne, Bool.false_eq_true, if_false]

/-! ### Claim C2: identity on input with no collected edits -/

/-- C2: for every source text that parses successfully and on which no
active rule callback yields any (offset, edit-function) pair, the engine
returns the input text unchanged — the very same string, by the early
return `if not callbacks: return contents_text`. -/
theorem c2_identity_on_no_yield (layer : ParseLayer) (settings : Settings)
    (fn text : String) (tree : PyAst)
    (hp : layer.ast_parse text = some tree)
    (hnone : visit tree settings fn = []) :
    apply_fixers layer settings fn text = some text := by
  unfold apply_fixers
  rw [hp]
  simp [hnone]

/-- Witness for C2: the empty module yields no edits, and the engine
returns the input unchanged. -/
theorem c2_identity_on_no_yield_witness :
    apply_fixers ⟨fun _ => some (.module []), fun _ => some []⟩
      (Settings.make (5, 0) none none) "t.py" "pass\n" = some "pass\n" :=
  c2_identity_on_no_yield _ _ _ _ (.module []) rfl
    (by rw [visit_eq_visitS]; rfl)

/-! ### Claim C4: parse-failure and tokenize-failure fallback -/

/-- C4: when parsing raises a syntax error — or tokenizing raises a
tokenize error — `apply_fixers` returns the input text exactly, and the
per-file result of `fix_file` reports no change with return code 0. -/
theorem c4_parse_failure_fallback (layer : ParseLayer) (settings : Settings)
    (fn text : String) (ez : Bool)
    (h : layer.ast_parse text = none ∨ layer.src_to_tokens text = none) :
    apply_fixers layer settings fn text = some text ∧
      fixFileCore layer settings fn ez text = some (text, 0) := by
  have happ : apply_fixers layer settings fn text = some text := by
    unfold apply_fixers
    rcases h with h | h
    · rw [h]
    · cases hp : layer.ast_parse text with
      | none => rfl
      | some tree => simp [h]
  refine ⟨happ, ?_⟩
  unfold fixFileCore
  rw [happ]
  simp

/-- Witness for C4: a layer whose parser always fails returns the input
unchanged with return code 0. -/
theorem c4_parse_failure_fallback_witness :
    apply_fixers ⟨fun _ => none, fun _ => none⟩ (Settings.make (2, 2) none none)
        "t.py" "def f(:" = some "def f(:" ∧
      fixFileCore ⟨fun _ => none, fun _ => none⟩ (Settings.make (2, 2) none none)
        "t.py" false "def f(:" = some ("def f(:", 0) :=
  c4_parse_failure_fallback _ _ _ _ _ (Or.inl rfl)

/-! ### Claim C5: the format_html concrete scenario -/

set_option maxHeartbeats 2000000 in
/-- C5: applying the pipeline to
`"from django.utils.html import format_html\nhtml = format_html(\"Hello, {}!\".format(name))\n"`
with default settings at any target version at least (5, 0) produces
exactly
`"from django.utils.html import format_html\nhtml = format_html(\"Hello, {}!\", name)\n"`. -/
theorem c5_format_html_scenario (v : Nat × Nat) (fn : String)
    (hv : versionLe (5, 0) v = true) :
    apply_fixers c5Layer (Settings.make v none none) fn c5Input
      = some c5Expected := by
  have h : visit c5Tree (Settings.make v none none) fn
      = (visitS tableAll (Settings.make v none none) fn c5Tree []
          ⟨[], fun _ => [], []⟩).ret := by
    rw [visit_eq_visitS, tableAll_eq v fn hv]
  have hret : (visitS tableAll (Settings.make v none none) fn c5Tree []
      ⟨[], fun _ => [], []⟩).ret = [(⟨2, 7⟩, rewrite_str_format c5CallInner)] := rfl
  have hne : (visit c5Tree (Settings.make v none none) fn).isEmpty = false := by
    rw [h, hret]; rfl
  rw [apply_fixers_unfold c5Layer _ fn c5Input c5Tree c5Tokens rfl rfl hne]
  rw [h, hret]
  decide

/-- Witness for C5 at target version (5, 0) itself. -/
theorem c5_format_html_scenario_witness :
    apply_fixers c5Layer (Settings.make (5, 0) none none) "t.py" c5Input
      = some c5Expected :=
  c5_format_html_scenario (5, 0) "t.py" (by decide)

/-! ### Claim C6: the admin_allow_tags concrete scenario -/

set_option maxHeartbeats 4000000 in
/-- C6: applying the pipeline to
`"from django.contrib import admin\nclass A:\n    f.allow_tags = True\n"`
with default settings at any target version at least (2, 0) produces
exactly `"from django.contrib import admin\nclass A:\n"` — the
assignment line is erased in full, including its trailing newline. -/
theorem c6_admin_allow_tags_scenario (v : Nat × Nat) (fn : String)
    (hv : versionLe (2, 0) v = true) :
    apply_fixers c6Layer (Settings.make v none none) fn c6Input
      = some c6Expected := by
  have hcore : (match fixup_dedent_tokens c6Tokens with
      | none => none
      | some toks2 =>
        match applyLoop [(⟨3, 4⟩, erase_node c6Assign)] toks2.length toks2 with
        | none => none
        | some toks3 => some (tokens_to_src toks3)) = some c6Expected := by decide
  cases hb5 : versionLe (5, 0) v with
  | true =>
    have h : visit c6Tree (Settings.make v none none) fn
        = (visitS tableAll (Settings.make v none none) fn c6Tree []
            ⟨[], fun _ => [], []⟩).ret := by
      rw [visit_eq_visitS, tableAll_eq v fn hb5]
    have hret : (visitS tableAll (Settings.make v none none) fn c6Tree []
        ⟨[], fun _ => [], []⟩).ret = [(⟨3, 4⟩, erase_node c6Assign)] := rfl
    have hne : (visit c6Tree (Settings.make v none none) fn).isEmpty = false := by
      rw [h, hret]; rfl
    rw [apply_fixers_unfold c6Layer _ fn c6Input c6Tree c6Tokens rfl rfl hne]
    rw [h, hret]
    exact hcore
  | false =>
    cases hb3 : versionLe (3, 0) v with
    | true =>
      have h : visit c6Tree (Settings.make v none none) fn
          = (visitS table30 (Settings.make v none none) fn c6Tree []
              ⟨[], fun _ => [], []⟩).ret := by
        rw [visit_eq_visitS, table30_eq v fn hv hb3 hb5]
      have hret : (visitS table30 (Settings.make v none none) fn c6Tree []
          ⟨[], fun _ => [], []⟩).ret = [(⟨3, 4⟩, erase_node c6Assign)] := rfl
      have hne : (visit c6Tree (Settings.make v none none) fn).isEmpty = false := by
        rw [h, hret]; rfl
      rw [apply_fixers_unfold c6Layer _ fn c6Input c6Tree c6Tokens rfl rfl hne]
      rw [h, hret]
      exact hcore
    | false =>
      have h : visit c6Tree (Settings.make v none none) fn
          = (visitS table20 (Settings.make v none none) fn c6Tree []
              ⟨[], fun _ => [], []⟩).ret := by
        rw [visit_eq_visitS, table20_eq v fn hv hb3 hb5]
      have hret : (visitS table20 (Settings.make v none none) fn c6Tree []
          ⟨[], fun _ => [], []⟩).ret = [(⟨3, 4⟩, erase_node c6Assign)] := rfl
      have hne : (visit c6Tree (Settings.make v none none) fn).isEmpty = false := by
        rw [h, hret]; rfl
      rw [apply_fixers_unfold c6Layer _ fn c6Input c6Tree c6Tokens rfl rfl hne]
      rw [h, hret]
      exact hcore

/-- Witness for C6 at target version (2, 0) itself. -/
theorem c6_admin_allow_tags_scenario_witness :
    apply_fixers c6Layer (Settings.make (2, 0) none none) "admin.py" c6Input
      = some c6Expected :=
  c6_admin_allow_tags_scenario (2, 0) "admin.py" (by decide)

/-! ### Claim C1: reverse-order edit independence -/

theorem runCallbacks_nil (ts : List Token) (i : Nat) :
    runCallbacks [] ts i = some ts := rfl

theorem runCallbacks_one (f : TokenFunc) (ts : List Token) (i : Nat) :
    runCallbacks [f] ts i = f ts i := by
  cases h : f ts i <;> simp [runCallbacks, List.foldlM, h]

/-- Iterations of the reverse edit loop over a range whose tokens have
empty source text or no queued edits neither change the token list nor
record an invocation. -/
theorem applyLoopT_skip (cb : MMap) :
    ∀ (hi lo : Nat) (ts : List Token) (tr : List (Nat × Token)),
    lo ≤ hi → hi ≤ ts.length →
    (∀ m t, lo ≤ m → m < hi → ts[m]? = some t →
      t.src = "" ∨ MMap.get cb t.offset = []) →
    applyLoopT cb hi ts tr = applyLoopT cb lo ts tr := by
  intro hi
  induction hi with
  | zero =>
    intro lo ts tr hlo _ _
    have : lo = 0 := Nat.le_zero.mp hlo
    subst this
    rfl
  | succ n ih =>
    intro lo ts tr hlo hlen hskip
    by_cases heq : lo = n + 1
    · subst heq; rfl
    · have hlo2 : lo ≤ n := by omega
      have hn : n < ts.length := by omega
      have ht : ts[n]? = some ts[n] := List.getElem?_eq_getElem hn
      have hrest : applyLoopT cb (n + 1) ts tr = applyLoopT cb n ts tr := by
        rcases hskip n ts[n] hlo2 (by omega) ht with hsrc | hcb
        · simp only [applyLoopT, ht, hsrc, if_pos]
        · by_cases hsrc : ts[n].src = ""
          · simp only [applyLoopT, ht, hsrc, if_pos]
          · simp [applyLoopT, ht, hsrc, hcb, runCallbacks_nil]
      rw [hrest]
      exact ih lo ts tr hlo2 (by omega) (fun m t h1 h2 h3 => hskip m t h1 (by omega) h3)

/-- The invocation trace only grows. -/
theorem applyLoopT_trace_grows (cb : MMap) :
    ∀ (i : Nat) (ts : List Token) (tr : List (Nat × Token)),
    tr <+: (applyLoopT cb i ts tr).2 := by
  intro i
  induction i with
  | zero => intro ts tr; exact List.prefix_refl tr
  | succ n ih =>
    intro ts tr
    simp only [applyLoopT]
    cases hts : ts[n]? with
    | none => exact List.prefix_refl tr
    | some t =>
      by_cases hsrc : t.src = ""
      · simp only [hsrc, if_pos]
        exact ih ts tr
      · simp only [hsrc, if_neg, ite_false]
        cases hie : (MMap.get cb t.offset).isEmpty with
        | true =>
          simp only [hie, if_pos, ite_true]
          cases hrun : runCallbacks (MMap.get cb t.offset) ts n with
          | none => exact List.prefix_refl tr
          | some ts2 => exact ih ts2 tr
        | false =>
          simp only [hie, Bool.false_eq_true, if_neg, ite_false]
          cases hrun : runCallbacks (MMap.get cb t.offset) ts n with
          | none => exact List.prefix_append tr [(n, t)]
          | some ts2 =>
            exact (List.prefix_append tr [(n, t)]).trans (ih ts2 (tr ++ [(n, t)]))

/-- One iteration of the reverse edit loop at a token with queued
edits whose run succeeds: the invocation is recorded and the loop
continues on the mutated list. -/
theorem applyLoopT_step_some (cb : MMap) (i : Nat) (ts ts2 : List Token)
    (tr : List (Nat × Token)) (t : Token)
    (ht : ts[i]? = some t) (hsrc : t.src ≠ "")
    (hne : (MMap.get cb t.offset).isEmpty = false)
    (hrun : runCallbacks (MMap.get cb t.offset) ts i = some ts2) :
    applyLoopT cb (i + 1) ts tr = applyLoopT cb i ts2 (tr ++ [(i, t)]) := by
  simp only [applyLoopT, ht, hsrc, hne, hrun, Bool.false_eq_true, if_neg,
    ite_false]

/-- One iteration of the reverse edit loop at a token with queued edits
whose run raises: the invocation is still recorded in the returned
trace. -/
theorem applyLoopT_step_none (cb : MMap) (i : Nat) (ts : List Token)
    (tr : List (Nat × Token)) (t : Token)
    (ht : ts[i]? = some t) (hsrc : t.src ≠ "")
    (hne : (MMap.get cb t.offset).isEmpty = false)
    (hrun : runCallbacks (MMap.get cb t.offset) ts i = none) :
    applyLoopT cb (i + 1) ts tr = (none, tr ++ [(i, t)]) := by
  simp only [applyLoopT, ht, hsrc, hne, hrun, Bool.false_eq_true, if_neg,
    ite_false]

theorem delSlice_getElem?_lt (ts : List Token) (a b m : Nat) (h : m < a) :
    (delSlice ts a b)[m]? = ts[m]? := by
  by_cases hm : m < ts.length
  · unfold delSlice
    rw [List.getElem?_append]
    rw [if_pos (by simp [List.length_take]; omega)]
    simp [List.getElem?_take, h]
  · have h1 : ts[m]? = none := List.getElem?_eq_none (by omega)
    have h2 : (delSlice ts a b)[m]? = none := by
      apply List.getElem?_eq_none
      simp only [delSlice, List.length_append, List.length_take, List.length_drop]
      omega
    rw [h1, h2]

theorem delSlice_length_ge (ts : List Token) (a b : Nat) (hb : a ≤ ts.length) :
    a ≤ (delSlice ts a b).length := by
  simp [delSlice, List.length_take, List.length_drop]
  omega

set_option maxHeartbeats 1000000 in
/-- C1: in the reverse edit loop, for a token list with edits queued at
two distinct offsets — carried by the tokens at positions `j1 < j2`,
every other token having empty source or a different offset — where the
higher-offset edit deletes a multi-token span at or after its anchor,
the run first invokes the higher edit at index `j2` with its original
token and then still invokes the lower edit at index `j1`, the index of
the token that originally carried its offset, with that original token:
downstream mutation never changes the index of a not-yet-visited
lower-index token. -/
theorem c1_reverse_order_edit_independence
    (ts : List Token) (f1 : TokenFunc) (d k : Nat)
    (j1 j2 : Nat) (tok1 tok2 : Token)
    (hj : j1 < j2) (hlen : j2 < ts.length) (_hk : 2 ≤ k)
    (ht1 : ts[j1]? = some tok1) (ht2 : ts[j2]? = some tok2)
    (hs1 : tok1.src ≠ "") (hs2 : tok2.src ≠ "")
    (hoff : tok1.offset ≠ tok2.offset)
    (hothers : ∀ m t, m ≠ j1 → m ≠ j2 → ts[m]? = some t →
      t.src = "" ∨ (t.offset ≠ tok1.offset ∧ t.offset ≠ tok2.offset)) :
    ∃ r tr,
      applyLoopT [(tok1.offset, f1), (tok2.offset, deleteSpanEdit d k)]
        ts.length ts [] = (r, tr) ∧
      [(j2, tok2), (j1, tok1)] <+: tr := by
  have hoff2 : tok2.offset ≠ tok1.offset := Ne.symm hoff
  have get1 : MMap.get [(tok1.offset, f1), (tok2.offset, deleteSpanEdit d k)]
      tok1.offset = [f1] := by
    simp [MMap.get, List.filter, hoff2]
  have get2 : MMap.get [(tok1.offset, f1), (tok2.offset, deleteSpanEdit d k)]
      tok2.offset = [deleteSpanEdit d k] := by
    simp [MMap.get, List.filter, hoff]
  have getother : ∀ o, o ≠ tok1.offset → o ≠ tok2.offset →
      MMap.get [(tok1.offset, f1), (tok2.offset, deleteSpanEdit d k)] o = [] := by
    intro o h1 h2
    simp [MMap.get, List.filter, Ne.symm h1, Ne.symm h2]
  have hA : applyLoopT [(tok1.offset, f1), (tok2.offset, deleteSpanEdit d k)]
      ts.length ts [] =
      applyLoopT [(tok1.offset, f1), (tok2.offset, deleteSpanEdit d k)]
        (j2 + 1) ts [] := by
    apply applyLoopT_skip _ ts.length (j2 + 1) ts [] (by omega) (le_refl _)
    intro m t hm1 hm2 htm
    rcases hothers m t (by omega) (by omega) htm with h | ⟨ha, hb⟩
    · exact Or.inl h
    · exact Or.inr (getother _ ha hb)
  have hrun2 : runCallbacks
      (MMap.get [(tok1.offset, f1), (tok2.offset, deleteSpanEdit d k)] tok2.offset)
      ts j2 = some (delSlice ts (j2 + d) (j2 + d + k)) := by
    rw [get2, runCallbacks_one]
    rfl
  have hB := applyLoopT_step_some
    [(tok1.offset, f1), (tok2.offset, deleteSpanEdit d k)] j2 ts
    (delSlice ts (j2 + d) (j2 + d + k)) [] tok2
    ht2 hs2 (by rw [get2]; rfl) hrun2
  simp only [List.nil_append] at hB
  have hag : ∀ m, m < j2 →
      (delSlice ts (j2 + d) (j2 + d + k))[m]? = ts[m]? := by
    intro m hm
    exact delSlice_getElem?_lt ts (j2 + d) (j2 + d + k) m (by omega)
  have hlen1 : j2 ≤ (delSlice ts (j2 + d) (j2 + d + k)).length := by
    have := delSlice_length_ge ts (j2 + d) (j2 + d + k)
    simp [delSlice, List.length_take, List.length_drop]
    omega
  have hC : applyLoopT [(tok1.offset, f1), (tok2.offset, deleteSpanEdit d k)]
      j2 (delSlice ts (j2 + d) (j2 + d + k)) [(j2, tok2)] =
      applyLoopT [(tok1.offset, f1), (tok2.offset, deleteSpanEdit d k)]
        (j1 + 1) (delSlice ts (j2 + d) (j2 + d + k)) [(j2, tok2)] := by
    apply applyLoopT_skip _ j2 (j1 + 1) _ _ (by omega) hlen1
    intro m t hm1 hm2 htm
    rw [hag m (by omega)] at htm
    rcases hothers m t (by omega) (by omega) htm with h | ⟨ha, hb⟩
    · exact Or.inl h
    · exact Or.inr (getother _ ha hb)
  have ht1b : (delSlice ts (j2 + d) (j2 + d + k))[j1]? = some tok1 := by
    rw [hag j1 hj]
    exact ht1
  cases hf : f1 (delSlice ts (j2 + d) (j2 + d + k)) j1 with
  | none =>
    have hrun1 : runCallbacks
        (MMap.get [(tok1.offset, f1), (tok2.offset, deleteSpanEdit d k)] tok1.offset)
        (delSlice ts (j2 + d) (j2 + d + k)) j1 = none := by
      rw [get1, runCallbacks_one, hf]
    have hD := applyLoopT_step_none
      [(tok1.offset, f1), (tok2.offset, deleteSpanEdit d k)] j1
      (delSlice ts (j2 + d) (j2 + d + k)) [(j2, tok2)] tok1
      ht1b hs1 (by rw [get1]; rfl) hrun1
    simp only [List.cons_append, List.nil_append] at hD
    refine ⟨none, [(j2, tok2), (j1, tok1)], ?_, List.prefix_refl _⟩
    rw [hA, hB, hC, hD]
  | some ts2 =>
    have hrun1 : runCallbacks
        (MMap.get [(tok1.offset, f1), (tok2.offset, deleteSpanEdit d k)] tok1.offset)
        (delSlice ts (j2 + d) (j2 + d + k)) j1 = some ts2 := by
      rw [get1, runCallbacks_one, hf]
    have hD := applyLoopT_step_some
      [(tok1.offset, f1), (tok2.offset, deleteSpanEdit d k)] j1
      (delSlice ts (j2 + d) (j2 + d + k)) ts2 [(j2, tok2)] tok1
      ht1b hs1 (by rw [get1]; rfl) hrun1
    simp only [List.cons_append, List.nil_append] at hD
    refine ⟨(applyLoopT [(tok1.offset, f1), (tok2.offset, deleteSpanEdit d k)]
        j1 ts2 [(j2, tok2), (j1, tok1)]).1,
      (applyLoopT [(tok1.offset, f1), (tok2.offset, deleteSpanEdit d k)]
        j1 ts2 [(j2, tok2), (j1, tok1)]).2, ?_,
      applyLoopT_trace_grows _ j1 ts2 [(j2, tok2), (j1, tok1)]⟩
    rw [hA, hB, hC, hD]

/-- Witness for C1: a three-token list, the lower edit at index 0, the
higher edit at index 1 deleting the two tokens at and after its anchor. -/
theorem c1_reverse_order_edit_independence_witness :
    [(1, (⟨"NAME", "b", ⟨1, 2⟩⟩ : Token)), (0, (⟨"NAME", "a", ⟨1, 0⟩⟩ : Token))] <+:
      (applyLoopT [((⟨1, 0⟩ : Offset), fun ts _ => some ts),
          ((⟨1, 2⟩ : Offset), deleteSpanEdit 0 2)] 3
        [⟨"NAME", "a", ⟨1, 0⟩⟩, ⟨"NAME", "b", ⟨1, 2⟩⟩, ⟨"NAME", "c", ⟨1, 4⟩⟩]
        []).2 := by
  obtain ⟨r, tr, heq, hpre⟩ := c1_reverse_order_edit_independence
    [⟨"NAME", "a", ⟨1, 0⟩⟩, ⟨"NAME", "b", ⟨1, 2⟩⟩, ⟨"NAME", "c", ⟨1, 4⟩⟩]
    (fun ts _ => some ts) 0 2 0 1 ⟨"NAME", "a", ⟨1, 0⟩⟩ ⟨"NAME", "b", ⟨1, 2⟩⟩
    (by decide) (by decide) (by decide) (by decide) (by decide)
    (by decide) (by decide) (by decide)
    (by
      intro m t h1 h2 htm
      rcases m with _ | _ | _ | m
      · exact absurd rfl h1
      · exact absurd rfl h2
      · refine Or.inr ?_
        have ht : t = ⟨"NAME", "c", ⟨1, 4⟩⟩ := by
          simp only [List.getElem?_cons_succ, List.getElem?_cons_zero,
            Option.some.injEq] at htm
          exact htm.symm
        subst ht
        exact ⟨by decide, by decide⟩
      · rw [List.getElem?_cons_succ, List.getElem?_cons_succ,
          List.getElem?_cons_succ, List.getElem?_nil] at htm
        exact Option.noConfusion htm)
  norm_num at heq
  rw [heq]
  exact hpre

/-! ### Claim C3: version gating of registered rules -/

/-- The dispatch-table fold equals the concatenation of the callback
lists of exactly the active fixers, in registration order. -/
theorem buildTable_eq_filter (fixers : List Fixer) (st : State)
    (settings : Settings) (k : Kind) :
    buildTable fixers st settings k =
      ((fixers.filter (fixerActive st settings)).map
        (fun f => f.ast_funcs k)).flatten := by
  suffices h : ∀ (acc : Kind → List ASTFunc),
      (List.foldl
        (fun acc f =>
          if f.name ∈ settings.enabled_fixers then
            if versionLe f.min_version st.settings.target_version &&
                conditionHolds f st
            then fun k => acc k ++ f.ast_funcs k
            else acc
          else acc)
        acc fixers) k =
      acc k ++ ((fixers.filter (fixerActive st settings)).map
        (fun f => f.ast_funcs k)).flatten by
    have := h (fun _ => [])
    simpa [buildTable] using this
  induction fixers with
  | nil => intro acc; simp
  | cons f rest ih =>
    intro acc
    by_cases hm : f.name ∈ settings.enabled_fixers
    · by_cases hv : (versionLe f.min_version st.settings.target_version &&
          conditionHolds f st) = true
      · have hact : fixerActive st settings f = true := by
          simp [fixerActive, hm]
          simp at hv
          exact hv
        simp only [List.foldl_cons, if_pos hm, if_pos hv, List.filter_cons,
          hact, ite_true, List.map_cons, List.flatten_cons]
        rw [ih]
        simp [List.append_assoc]
      · have hact : fixerActive st settings f = false := by
          simp [fixerActive, hm]
          simp at hv
          intro h1
          rcases hv h1 with h2
          exact h2
        simp only [List.foldl_cons, if_pos hm, if_neg hv, List.filter_cons,
          hact, Bool.false_eq_true, ite_false]
        exact ih acc
    · have hact : fixerActive st settings f = false := by
        simp [fixerActive, hm]
      simp only [List.foldl_cons, if_neg hm, List.filter_cons, hact,
        Bool.false_eq_true, ite_false]
      exact ih acc

set_option maxHeartbeats 1000000 in
/-- C3: for every registered fixer with `min_version = (3, 0)` —
`psycopg2_to_psycopg3` is the only one — the dispatch table built at
target version (2, 2) is the table built with that fixer removed from
the registry (the rule contributes no callbacks, so it never fires),
while at any target version `v` with `(3, 0) <= v` (lexicographically),
with the fixer enabled and its condition (absent or) holding, every one
of its per-kind callback lists embeds in order into the built table (so
it fires on a matching pattern). -/
theorem c3_version_gating :
    ∀ f ∈ FIXERS, f.min_version = (3, 0) →
      (∀ (s22 : Settings) (st : State), s22.target_version = (2, 2) →
        st.settings = s22 → ∀ k,
        get_ast_funcs st s22 k =
          buildTable (FIXERS.filter (fun g => g.name ≠ f.name)) st s22 k) ∧
      (∀ (s : Settings) (st : State), st.settings = s →
        versionLe (3, 0) s.target_version = true →
        f.name ∈ s.enabled_fixers →
        conditionHolds f st = true → ∀ k,
        (f.ast_funcs k).Sublist (get_ast_funcs st s k)) := by
  intro f hf hmin
  have hf3 : f = psycopg2_to_psycopg3_fixer := by
    simp only [FIXERS, List.mem_cons, List.not_mem_nil, or_false] at hf
    rcases hf with rfl | rfl | rfl
    · exact absurd hmin (by decide)
    · exact absurd hmin (by decide)
    · rfl
  subst hf3
  constructor
  · intro s22 st h22 hst k
    have hina : fixerActive st s22 psycopg2_to_psycopg3_fixer = false := by
      simp [fixerActive, psycopg2_to_psycopg3_fixer, conditionHolds, hst, h22,
        versionLe]
    unfold get_ast_funcs
    rw [buildTable_eq_filter, buildTable_eq_filter]
    have hnames : FIXERS.filter
        (fun g => g.name ≠ psycopg2_to_psycopg3_fixer.name) =
        [admin_allow_tags_fixer, format_html_fixer] := rfl
    have hfl : FIXERS.filter (fixerActive st s22) =
        (FIXERS.filter
          (fun g => g.name ≠ psycopg2_to_psycopg3_fixer.name)).filter
          (fixerActive st s22) := by
      rw [hnames]
      simp only [FIXERS, List.filter_cons, List.filter_nil, hina,
        Bool.false_eq_true, ite_false]
    rw [hfl]
  · intro s st hst hv hmem hcond k
    have hact : fixerActive st s psycopg2_to_psycopg3_fixer = true := by
      have hmem2 : "psycopg2_to_psycopg3" ∈ s.enabled_fixers := hmem
      have hcond2 : conditionHolds psycopg2_to_psycopg3_fixer st = true := rfl
      simp [fixerActive, hst, psycopg2_to_psycopg3_fixer, conditionHolds,
        hv, hmem2]
    unfold get_ast_funcs
    rw [buildTable_eq_filter]
    have hsplit : FIXERS.filter (fixerActive st s) =
        ([admin_allow_tags_fixer, format_html_fixer].filter (fixerActive st s))
          ++ [psycopg2_to_psycopg3_fixer] := by
      simp only [FIXERS, List.filter_cons, hact, ite_true, List.filter_nil]
      cases fixerActive st s admin_allow_tags_fixer <;>
        cases fixerActive st s format_html_fixer <;> simp
    rw [hsplit]
    simp only [List.map_append, List.flatten_append, List.map_cons,
      List.map_nil, List.flatten_cons, List.flatten_nil, List.append_nil]
    exact List.sublist_append_right _ _

/-- Witness for C3, applied to `psycopg2_to_psycopg3` at the
`importFrom` dispatch key, with target versions (2, 2) and (3, 0). -/
theorem c3_version_gating_witness :
    get_ast_funcs ⟨Settings.make (2, 2) none none, "t.py", fun _ => []⟩
        (Settings.make (2, 2) none none) Kind.importFrom =
      buildTable
        (FIXERS.filter (fun g => g.name ≠ psycopg2_to_psycopg3_fixer.name))
        ⟨Settings.make (2, 2) none none, "t.py", fun _ => []⟩
        (Settings.make (2, 2) none none) Kind.importFrom ∧
    (psycopg2_to_psycopg3_fixer.ast_funcs Kind.importFrom).Sublist
      (get_ast_funcs ⟨Settings.make (3, 0) none none, "t.py", fun _ => []⟩
        (Settings.make (3, 0) none none) Kind.importFrom) := by
  have h := c3_version_gating psycopg2_to_psycopg3_fixer
    (by simp [FIXERS]) rfl
  exact ⟨h.1 (Settings.make (2, 2) none none) _ rfl rfl Kind.importFrom,
    h.2 (Settings.make (3, 0) none none) _ rfl (by decide) (by decide) rfl
      Kind.importFrom⟩

/-! ### Claims C7 and C10: import tracking during the traversal -/

theorem mem_setAdd (s : List String) (x y : String) :
    y ∈ setAdd s x ↔ y ∈ s ∨ y = x := by
  unfold setAdd
  by_cases h : x ∈ s
  · simp only [h, if_pos]
    constructor
    · exact Or.inl
    · rintro (hy | rfl)
      · exact hy
      · exact h
  · simp [h]

theorem mem_setUpdate (s : List String) (xs : List String) (y : String) :
    y ∈ setUpdate s xs ↔ y ∈ s ∨ y ∈ xs := by
  induction xs generalizing s with
  | nil => simp [setUpdate]
  | cons a t ih =>
    unfold setUpdate at *
    simp only [List.foldl_cons]
    rw [ih (setAdd s a), mem_setAdd]
    simp [or_assoc]

theorem mem_recordFI (fi : String → List String) (n : PyAst) (m x : String) :
    x ∈ recordFI fi n m ↔ x ∈ fi m ∨ recordsInto n m x := by
  cases n with
  | importFrom sp module? names level =>
    cases module? with
    | none => simp [recordFI, recordsInto]
    | some mod =>
      by_cases hg : (level = 0 &&
          (strStartsWith mod "django." || mod = "django" || mod = "unittest"))
          = true
      · simp only [recordFI, hg, if_pos]
        by_cases hm : m = mod
        · subst hm
          simp only [if_pos rfl, recordsInto]
          simp only [Bool.and_eq_true, decide_eq_true_eq] at hg
          simp only [hg.1, hg.2, true_and, eq_self_iff_true]
          exact mem_setUpdate _ _ _
        · rw [if_neg hm]
          simp only [recordsInto]
          have : ¬(mod = m) := fun hc => hm hc.symm
          simp [this]
      · simp only [recordFI, hg, Bool.false_eq_true, if_neg, ite_false]
        simp only [recordsInto]
        simp only [Bool.and_eq_true, decide_eq_true_eq] at hg
        constructor
        · exact Or.inl
        · rintro (hy | ⟨h0, htrack, rfl, hx⟩)
          · exact hy
          · exact absurd ⟨h0, htrack⟩ hg
  | module body => simp [recordFI, recordsInto]
  | importStmt sp names => simp [recordFI, recordsInto]
  | aliasNode sp an asn => simp [recordFI, recordsInto]
  | assign sp t v => simp [recordFI, recordsInto]
  | classDef sp c b kw bo de => simp [recordFI, recordsInto]
  | call sp f a kw => simp [recordFI, recordsInto]
  | nameNode sp i c => simp [recordFI, recordsInto]
  | attributeNode sp v a c => simp [recordFI, recordsInto]
  | constant sp v => simp [recordFI, recordsInto]
  | exprStmt sp v => simp [recordFI, recordsInto]
  | load => simp [recordFI, recordsInto]
  | store => simp [recordFI, recordsInto]

theorem mem_foldl_recordFI (l : List PyAst) (fi : String → List String)
    (m x : String) :
    x ∈ (List.foldl recordFI fi l) m ↔
      x ∈ fi m ∨ ∃ n, n ∈ l ∧ recordsInto n m x := by
  induction l generalizing fi with
  | nil => simp
  | cons a t ih =>
    simp only [List.foldl_cons]
    rw [ih (recordFI fi a)]
    rw [mem_recordFI]
    constructor
    · rintro ((hy | hr) | ⟨n, hn, hr⟩)
      · exact Or.inl hy
      · exact Or.inr ⟨a, List.mem_cons_self a t, hr⟩
      · exact Or.inr ⟨n, List.mem_cons_of_mem a hn, hr⟩
    · rintro (hy | ⟨n, hn, hr⟩)
      · exact Or.inl (Or.inl hy)
      · rcases List.mem_cons.mp hn with rfl | hn2
        · exact Or.inl (Or.inr hr)
        · exact Or.inr ⟨n, hn2, hr⟩

theorem preorderL_eq_flatMap (l : List PyAst) :
    preorderL l = l.flatMap preorder := by
  induction l with
  | nil => simp [preorderL]
  | cons a t ih => simp [preorderL, ih]

/-- The nodes recorded in the traversal trace, in order, are the stack
entries' pre-order sequences. -/
theorem visitLoop_trace_nodes (F : Kind → List ASTFunc) (settings : Settings)
    (fn : String) (stack : List (PyAst × List PyAst)) (acc : VisitAcc) :
    (visitLoop F settings fn stack acc).trace.map Prod.fst =
      acc.trace.map Prod.fst ++ (stack.map Prod.fst).flatMap preorder := by
  induction stack, acc using visitLoop.induct F settings fn with
  | case1 acc => simp [visitLoop]
  | case2 node parents rest acc ih =>
    rw [visitLoop, ih]
    simp only [visitStep, List.map_append, List.map_map, List.map_cons,
      List.flatMap_cons]
    rw [preorder_eq, preorderL_eq_flatMap]
    simp only [Function.comp, List.flatMap_append, List.cons_append,
      List.append_assoc]
    have hid : (Prod.fst ∘ fun c : PyAst => (c, parents ++ [node])) = id := rfl
    rw [hid, List.map_id]
    simp

/-- The invariant tying `from_imports` to the trace: the current
`from_imports` is the fold of the import-recording step over the
processed nodes, and every trace entry holds the fold over the nodes
strictly before it. -/
def TraceInv (acc : VisitAcc) : Prop :=
  acc.fi = List.foldl recordFI (fun _ => []) (acc.trace.map Prod.fst) ∧
  ∀ k entry, acc.trace[k]? = some entry →
    entry.2 = List.foldl recordFI (fun _ => [])
      ((acc.trace.take k).map Prod.fst)

theorem visitStep_traceInv (F : Kind → List ASTFunc) (settings : Settings)
    (fn : String) (acc : VisitAcc) (node : PyAst) (parents : List PyAst)
    (h : TraceInv acc) : TraceInv (visitStep F settings fn acc node parents) := by
  obtain ⟨h1, h2⟩ := h
  constructor
  · simp only [visitStep, List.map_append, List.map_cons, List.map_nil,
      List.foldl_append, List.foldl_cons, List.foldl_nil]
    rw [← h1]
  · intro k entry hk
    simp only [visitStep] at hk
    by_cases hlt : k < acc.trace.length
    · rw [List.getElem?_append] at hk
      rw [if_pos hlt] at hk
      have := h2 k entry hk
      rw [this]
      simp only [visitStep, List.map_append]
      rw [List.take_append_of_le_length (by omega)]
    · by_cases heq : k = acc.trace.length
      · subst heq
        have : (acc.trace ++ [(node, acc.fi)])[acc.trace.length]? =
            some (node, acc.fi) := by simp
        rw [this] at hk
        cases hk
        simp only [visitStep]
        rw [List.take_append_of_le_length (le_refl _)]
        simp only [List.take_length]
        exact h1
      · have : (acc.trace ++ [(node, acc.fi)])[k]? = none := by
          apply List.getElem?_eq_none
          simp
          omega
        rw [this] at hk
        exact Option.noConfusion hk

theorem visitLoop_traceInv (F : Kind → List ASTFunc) (settings : Settings)
    (fn : String) (stack : List (PyAst × List PyAst)) (acc : VisitAcc) :
    TraceInv acc → TraceInv (visitLoop F settings fn stack acc) := by
  induction stack, acc using visitLoop.induct F settings fn with
  | case1 acc => intro h; simpa [visitLoop] using h
  | case2 node parents rest acc ih =>
    intro h
    rw [visitLoop]
    exact ih (visitStep_traceInv F settings fn acc node parents h)

/-- C10: within `visit`, the callbacks of every processed node — the
nodes are processed exactly in pre-order — receive the `from_imports`
built from the nodes processed strictly before it; in particular a
callback running on an import statement never observes the names
imported by that same statement. -/
theorem c10_callbacks_see_prior_imports (tree : PyAst) (settings : Settings)
    (fn : String) :
    ((visitFull tree settings fn).trace.map Prod.fst = preorder tree) ∧
    (∀ k entry, (visitFull tree settings fn).trace[k]? = some entry →
      entry.2 = List.foldl recordFI (fun _ => [])
        (((visitFull tree settings fn).trace.take k).map Prod.fst)) := by
  constructor
  · unfold visitFull
    rw [visitLoop_trace_nodes]
    simp
  · have h := visitLoop_traceInv
      (get_ast_funcs ⟨settings, fn, fun _ => []⟩ settings) settings fn
      [(tree, [])] ⟨[], fun _ => [], []⟩ ⟨rfl, by intro k entry hk; simp at hk⟩
    exact h.2

/-- Witness for C10: on `from django.contrib import admin` the trace
entry of the import statement itself carries the empty
`from_imports`. -/
theorem c10_callbacks_see_prior_imports_witness :
    ((⟨.importFrom ⟨1, 0, 1, 32⟩ (some "django.contrib")
          [.aliasNode ⟨1, 27, 1, 32⟩ "admin" none] 0,
        fun _ => ([] : List String)⟩ :
          PyAst × (String → List String)).2 =
      List.foldl recordFI (fun _ => [])
        (((visitFull
            (.module [.importFrom ⟨1, 0, 1, 32⟩ (some "django.contrib")
              [.aliasNode ⟨1, 27, 1, 32⟩ "admin" none] 0])
            (Settings.make (2, 2) none none) "t.py").trace.take 1).map
          Prod.fst)) :=
  (c10_callbacks_see_prior_imports
      (.module [.importFrom ⟨1, 0, 1, 32⟩ (some "django.contrib")
        [.aliasNode ⟨1, 27, 1, 32⟩ "admin" none] 0])
      (Settings.make (2, 2) none none) "t.py").2 1
    (⟨.importFrom ⟨1, 0, 1, 32⟩ (some "django.contrib")
        [.aliasNode ⟨1, 27, 1, 32⟩ "admin" none] 0, fun _ => []⟩)
    (by rw [visitFull_eq_visitS]; rfl)

/-- The claim C7 as stated is false on the code: `visit` records the
names of a from-import nested inside a class body.  Concretely, for

    class A:
        from django.contrib import admin

the traversal records `admin` into `from_imports["django.contrib"]`
even though the import is not at top scope. -/
theorem c7_counterexample_nested_import_recorded :
    (visitFull
        (.module [.classDef ⟨1, 0, 2, 30⟩ "A" [] []
          [.importFrom ⟨2, 4, 2, 30⟩ (some "django.contrib")
            [.aliasNode ⟨2, 25, 2, 30⟩ "admin" none] 0] []])
        (Settings.make (2, 2) none none) "t.py").fi "django.contrib"
      = ["admin"] := by
  rw [visitFull_eq_visitS]
  rfl

/-- C7 (amended): during `visit`, a from-import's names are recorded
into the per-module imported-name set if and only if the import is
absolute (`level = 0`) and names a tracked module (`django`,
`django.*`, `unittest`), with exactly the non-aliased, non-wildcard
names recorded — regardless of nesting: every `ImportFrom` node of the
tree, including those inside function or class bodies, is recorded. -/
theorem c7_import_recording_characterization (tree : PyAst)
    (settings : Settings) (fn : String) (m x : String) :
    x ∈ (visitFull tree settings fn).fi m ↔
      ∃ n, n ∈ preorder tree ∧ recordsInto n m x := by
  have hinv := visitLoop_traceInv
    (get_ast_funcs ⟨settings, fn, fun _ => []⟩ settings) settings fn
    [(tree, [])] ⟨[], fun _ => [], []⟩ ⟨rfl, by intro k entry hk; simp at hk⟩
  have htrace := visitLoop_trace_nodes
    (get_ast_funcs ⟨settings, fn, fun _ => []⟩ settings) settings fn
    [(tree, [])] ⟨[], fun _ => [], []⟩
  unfold visitFull
  rw [hinv.1]
  rw [htrace]
  simp only [List.map_nil, List.nil_append, List.map_cons, List.flatMap_cons,
    List.flatMap_nil, List.append_nil]
  rw [mem_foldl_recordFI]
  simp

/-! ### Claims C8 and C9: fixup_dedent_tokens -/

theorem swapAt_length (ts : List Token) (i : Nat) (a b : Token) :
    (swapAt ts i a b).length = ts.length := by simp [swapAt]

theorem swapAt_getElem?_ne (ts : List Token) (i m : Nat) (a b : Token)
    (h1 : m ≠ i) (h2 : m ≠ i + 1) : (swapAt ts i a b)[m]? = ts[m]? := by
  unfold swapAt
  rw [List.getElem?_set_ne (fun hc => h2 hc.symm),
    List.getElem?_set_ne (fun hc => h1 hc.symm)]

theorem swapAt_getElem?_fst (ts : List Token) (i : Nat) (a b : Token)
    (hi : i < ts.length) : (swapAt ts i a b)[i]? = some b := by
  unfold swapAt
  rw [List.getElem?_set_ne (by omega : i + 1 ≠ i)]
  rw [List.getElem?_set_self]
  exact hi

theorem swapAt_getElem?_snd (ts : List Token) (i : Nat) (a b : Token)
    (hi1 : i + 1 < ts.length) : (swapAt ts i a b)[i+1]? = some a := by
  unfold swapAt
  rw [List.getElem?_set_self]
  simpa using hi1

theorem swapAt_rep (ts : List Token) (i : Nat) (a b : Token)
    (ha : ts[i]? = some a) (hb : ts[i+1]? = some b) :
    swapAt ts i a b = ts.take i ++ b :: a :: ts.drop (i+2) := by
  have hi : i < ts.length := (List.getElem?_eq_some.mp ha).1
  have hi1 : i + 1 < ts.length := (List.getElem?_eq_some.mp hb).1
  have htl : (ts.take i).length = i := by
    simp only [List.length_take]
    omega
  apply List.ext_getElem?
  intro n
  rcases Nat.lt_trichotomy n i with h | h | h
  · rw [swapAt_getElem?_ne ts i n a b (by omega) (by omega)]
    rw [List.getElem?_append, if_pos (by rw [htl]; omega)]
    simp [List.getElem?_take, h]
  · subst h
    rw [swapAt_getElem?_fst ts n a b hi]
    rw [List.getElem?_append, if_neg (by rw [htl]; omega)]
    rw [htl, Nat.sub_self]
    rw [List.getElem?_cons_zero]
  · by_cases h2 : n = i + 1
    · subst h2
      rw [swapAt_getElem?_snd ts i a b hi1]
      rw [List.getElem?_append, if_neg (by rw [htl]; omega)]
      rw [htl, show i + 1 - i = 1 from by omega]
      rw [List.getElem?_cons_succ, List.getElem?_cons_zero]
    · rw [swapAt_getElem?_ne ts i n a b (by omega) h2]
      rw [List.getElem?_append, if_neg (by rw [htl]; omega)]
      rw [htl, show n - i = (n - i - 2) + 1 + 1 from by omega]
      rw [List.getElem?_cons_succ, List.getElem?_cons_succ, List.getElem?_drop]
      rw [show i + 2 + (n - i - 2) = n from by omega]

theorem swapAt_perm (ts : List Token) (i : Nat) (a b : Token)
    (ha : ts[i]? = some a) (hb : ts[i+1]? = some b) :
    (swapAt ts i a b).Perm ts := by
  have hi : i < ts.length := (List.getElem?_eq_some.mp ha).1
  have hi1 : i + 1 < ts.length := (List.getElem?_eq_some.mp hb).1
  have hrep : ts = ts.take i ++ a :: b :: ts.drop (i + 2) := by
    conv_lhs => rw [← List.take_append_drop i ts]
    congr 1
    rw [List.drop_eq_getElem_cons hi]
    have h1 : ts[i] = a := (List.getElem?_eq_some.mp ha).2
    have h2 : ts.drop (i + 1) = ts[i+1] :: ts.drop (i + 2) :=
      List.drop_eq_getElem_cons hi1
    have h3 : ts[i+1] = b := (List.getElem?_eq_some.mp hb).2
    rw [h1, h2, h3]
  rw [swapAt_rep ts i a b ha hb]
  conv_rhs => rw [hrep]
  exact List.Perm.append_left _ (List.Perm.swap a b _)

/-- If the scan of `fixup_dedent_tokens` returns a list, that list is a
permutation of the input of the same length, and every token of the
input that is neither an `UNIMPORTANT_WS` nor a `DEDENT` token is still
at its original index. -/
theorem fixupGo_someFacts :
    ∀ (fuel i : Nat) (ts R : List Token), fixupGo ts i fuel = some R →
      R.length = ts.length ∧ R.Perm ts ∧
      (∀ (j : Nat) (tj : Token), ts[j]? = some tj → tj.name ≠ UNIMPORTANT_WS →
        tj.name ≠ DEDENT → R[j]? = some tj) := by
  intro fuel
  induction fuel with
  | zero =>
    intro i ts R h
    simp only [fixupGo] at h
    cases h
    exact ⟨rfl, List.Perm.refl _, fun j tj hj h1 h2 => hj⟩
  | succ f ih =>
    intro i ts R h
    simp only [fixupGo] at h
    cases hts : ts[i]? with
    | none =>
      simp only [hts] at h
      cases h
      exact ⟨rfl, List.Perm.refl _, fun j tj hj h1 h2 => hj⟩
    | some t =>
      simp only [hts] at h
      by_cases hws : t.name = UNIMPORTANT_WS
      · rw [if_pos hws] at h
        cases hts2 : ts[i+1]? with
        | none =>
          simp only [hts2] at h
          exact Option.noConfusion h
        | some t2 =>
          simp only [hts2] at h
          by_cases hd : t2.name = DEDENT
          · rw [if_pos hd] at h
            obtain ⟨hlen, hperm, hfix⟩ := ih (i+1) (swapAt ts i t t2) R h
            refine ⟨?_, ?_, ?_⟩
            · rw [hlen, swapAt_length]
            · exact hperm.trans (swapAt_perm ts i t t2 hts hts2)
            · intro j tj hj h1 h2
              have hji : j ≠ i := by
                intro hc; subst hc
                rw [hts] at hj; cases hj; exact h1 hws
              have hji1 : j ≠ i + 1 := by
                intro hc; subst hc
                rw [hts2] at hj; cases hj; exact h2 hd
              apply hfix j tj _ h1 h2
              rw [swapAt_getElem?_ne ts i j t t2 hji hji1]
              exact hj
          · rw [if_neg hd] at h
            exact ih (i+1) ts R h
      · rw [if_neg hws] at h
        exact ih (i+1) ts R h

/-- The crash analysis of C9: if the last token of the list is an
`UNIMPORTANT_WS` token, the scan reads one index past the end and
fails. -/
theorem fixupGo_last_ws_none :
    ∀ (fuel i : Nat) (ts : List Token) (tl : Token),
      i + fuel = ts.length → 1 ≤ fuel →
      ts[ts.length - 1]? = some tl → tl.name = UNIMPORTANT_WS →
      fixupGo ts i fuel = none := by
  intro fuel
  induction fuel with
  | zero => intro i ts tl h1 h2; exact fun _ _ => absurd h2 (by omega)
  | succ f ih =>
    intro i ts tl hif hf hlast hws
    rcases Nat.eq_zero_or_pos f with rfl | hfpos
    · have hieq : i = ts.length - 1 := by omega
      have hnone : ts[i + 1]? = none := by
        apply List.getElem?_eq_none
        omega
      simp only [fixupGo]
      split
      · rename_i heq
        rw [hieq, hlast] at heq
        exact Option.noConfusion heq
      · rename_i t heq
        rw [hieq, hlast] at heq
        have ht : t = tl := (Option.some.injEq _ _).mp heq.symm
        rw [ht, if_pos hws]
        split
        · rfl
        · rename_i t2 heq2
          rw [hnone] at heq2
          exact Option.noConfusion heq2
    · have hi : i < ts.length - 1 := by omega
      have hil : i < ts.length := by omega
      simp only [fixupGo]
      split
      · rename_i heq
        rw [List.getElem?_eq_getElem hil] at heq
        exact Option.noConfusion heq
      · rename_i t heq
        by_cases hws2 : t.name = UNIMPORTANT_WS
        · rw [if_pos hws2]
          split
          · rfl
          · rename_i t2 hts2
            by_cases hd : t2.name = DEDENT
            · rw [if_pos hd]
              have hne2 : i + 1 ≠ ts.length - 1 := by
                intro hc
                have heq3 : t2 = tl := by
                  rw [hc] at hts2
                  rw [hts2] at hlast
                  exact (Option.some.injEq _ _).mp hlast
                rw [heq3, hws] at hd
                exact absurd hd (by decide)
              apply ih (i+1) (swapAt ts i t t2) tl
              · rw [swapAt_length]; omega
              · omega
              · rw [swapAt_length]
                rw [swapAt_getElem?_ne ts i (ts.length - 1) t t2
                  (by omega) (fun hc => hne2 hc.symm)]
                exact hlast
              · exact hws
            · rw [if_neg hd]
              exact ih (i+1) ts tl (by omega) (by omega) hlast hws
        · rw [if_neg hws2]
          exact ih (i+1) ts tl (by omega) (by omega) hlast hws

/-- C9: for every non-empty token list whose last element is an
`UNIMPORTANT_WS` token, `fixup_dedent_tokens` reads index `i + 1` past
the end of the list and fails with an index error instead of
returning — the function is total only when no `UNIMPORTANT_WS` token
is the final element. -/
theorem c9_fixup_crash_on_trailing_ws (ts : List Token) (tl : Token)
    (hl : ts.getLast? = some tl) (hws : tl.name = UNIMPORTANT_WS) :
    fixup_dedent_tokens ts = none := by
  have hne : ts ≠ [] := by
    intro hc; subst hc; exact Option.noConfusion hl
  have hpos : 0 < ts.length := List.length_pos.mpr hne
  have hlast : ts[ts.length - 1]? = some tl := by
    rw [← List.getLast?_eq_getElem?]
    exact hl
  exact fixupGo_last_ws_none ts.length 0 ts tl (by omega) (by omega) hlast hws

/-- Witness for C9: the singleton whitespace token list crashes. -/
theorem c9_fixup_crash_on_trailing_ws_witness :
    fixup_dedent_tokens [⟨"UNIMPORTANT_WS", "    ", ⟨2, 0⟩⟩] = none :=
  c9_fixup_crash_on_trailing_ws _ ⟨"UNIMPORTANT_WS", "    ", ⟨2, 0⟩⟩ rfl rfl

/-- The normalization invariant of `fixup_dedent_tokens`: when, in the
input, no `UNIMPORTANT_WS` token immediately follows an
`UNIMPORTANT_WS` or `DEDENT` token, and the final token is neither,
then (generalized over the scan position) the scan returns, and the
result has no `UNIMPORTANT_WS` token immediately before a `DEDENT`
token. -/
theorem fixupGo_norm :
    ∀ (fuel i : Nat) (ts : List Token), i + fuel = ts.length →
      (∀ tl, ts[ts.length - 1]? = some tl →
        tl.name ≠ UNIMPORTANT_WS ∧ tl.name ≠ DEDENT) →
      (∀ (j : Nat) (a b : Token), j + 1 ≤ i → ts[j]? = some a →
        ts[j+1]? = some b → ¬(a.name = UNIMPORTANT_WS ∧ b.name = DEDENT)) →
      (∀ (j : Nat) (a b : Token), i ≤ j → ts[j]? = some a →
        ts[j+1]? = some b → b.name = UNIMPORTANT_WS →
        a.name ≠ UNIMPORTANT_WS ∧ a.name ≠ DEDENT) →
      (∀ (a p : Token), 1 ≤ i → ts[i]? = some a →
        a.name = UNIMPORTANT_WS → ts[i-1]? = some p →
        p.name ≠ UNIMPORTANT_WS) →
      ∀ res, fixupGo ts i fuel = res →
        ∃ R, res = some R ∧
          ∀ (j : Nat) (a b : Token), R[j]? = some a → R[j+1]? = some b →
            ¬(a.name = UNIMPORTANT_WS ∧ b.name = DEDENT) := by
  intro fuel
  induction fuel with
  | zero =>
    intro i ts hlen hE hB hF hG res h
    simp only [fixupGo] at h
    refine ⟨ts, h.symm, ?_⟩
    intro j a b ha hb
    have hjb : j + 1 < ts.length := (List.getElem?_eq_some.mp hb).1
    exact hB j a b (by omega) ha hb
  | succ f ih =>
    intro i ts hlen hE hB hF hG res h
    have hil : i < ts.length := by omega
    simp only [fixupGo] at h
    split at h
    · rename_i heq
      rw [List.getElem?_eq_getElem hil] at heq
      exact Option.noConfusion heq
    · rename_i t heq
      by_cases hws : t.name = UNIMPORTANT_WS
      · rw [if_pos hws] at h
        split at h
        · rename_i heq2
          have hge : ts.length ≤ i + 1 := by
            by_contra hc
            rw [List.getElem?_eq_getElem (by omega)] at heq2
            exact Option.noConfusion heq2
          have hieq : i = ts.length - 1 := by omega
          rw [hieq] at heq
          exact absurd hws ((hE t heq).1)
        · rename_i t2 heq2
          have hi1 : i + 1 < ts.length := (List.getElem?_eq_some.mp heq2).1
          by_cases hd : t2.name = DEDENT
          · rw [if_pos hd] at h
            have hlen2 : (i + 1) + f = (swapAt ts i t t2).length := by
              rw [swapAt_length]; omega
            have hne_last1 : i + 1 ≠ ts.length - 1 := by
              intro hc
              rw [hc] at heq2
              exact absurd hd ((hE t2 heq2).2)
            have hne_last0 : i ≠ ts.length - 1 := by omega
            refine ih (i + 1) (swapAt ts i t t2) hlen2 ?_ ?_ ?_ ?_ res h
            · -- hE preserved
              intro tl htl
              rw [swapAt_length] at htl
              rw [swapAt_getElem?_ne ts i (ts.length - 1) t t2
                (fun hc => hne_last0 hc.symm) (fun hc => hne_last1 hc.symm)]
                at htl
              exact hE tl htl
            · -- hB re-established up to i + 1
              intro j a b hj ha hb
              rcases Nat.lt_or_ge (j + 1) i with hji | hji
              · rw [swapAt_getElem?_ne ts i j t t2 (by omega) (by omega)] at ha
                rw [swapAt_getElem?_ne ts i (j+1) t t2 (by omega) (by omega)]
                  at hb
                exact hB j a b (by omega) ha hb
              · rcases Nat.eq_or_lt_of_le hji with hji2 | hji2
                · -- j + 1 = i : pair (i - 1, i); the moved DEDENT is at i
                  rw [swapAt_getElem?_ne ts i j t t2 (by omega) (by omega)]
                    at ha
                  rw [show j + 1 = i from hji2.symm] at hb
                  rw [swapAt_getElem?_fst ts i t t2 hil] at hb
                  intro hcon
                  have hpa : ts[i-1]? = some a := by
                    rw [show i - 1 = j from by omega]
                    exact ha
                  exact hG t a (by omega) heq hws hpa hcon.1
                · -- j + 1 = i + 1 : pair (i, i + 1) = (DEDENT, WS)
                  have hji3 : j = i := by omega
                  rw [hji3] at ha
                  rw [swapAt_getElem?_fst ts i t t2 hil] at ha
                  have hat : a = t2 := ((Option.some.injEq _ _).mp ha).symm
                  intro hcon
                  rw [hat, hd] at hcon
                  exact absurd hcon.1 (by decide)
            · -- hF re-established from i + 1
              intro j a b hj ha hb hbws
              rcases Nat.eq_or_lt_of_le hj with hj2 | hj2
              · -- j = i + 1 : the WS moved to i + 1; next token unchanged
                subst hj2
                rw [swapAt_getElem?_snd ts i t t2 hi1] at ha
                cases ha
                rw [swapAt_getElem?_ne ts i (i+1+1) t t2 (by omega) (by omega)]
                  at hb
                have := hF (i+1) t2 b (by omega) heq2 hb hbws
                exact absurd hd this.2
              · rw [swapAt_getElem?_ne ts i j t t2 (by omega) (by omega)] at ha
                rw [swapAt_getElem?_ne ts i (j+1) t t2 (by omega) (by omega)]
                  at hb
                exact hF j a b (by omega) ha hb hbws
            · -- hG at the new position i + 1
              intro a p h1 ha hws2 hp
              rw [swapAt_getElem?_snd ts i t t2 hi1] at ha
              cases ha
              have hp2 : (swapAt ts i t t2)[i+1-1]? = some t2 := by
                rw [show i + 1 - 1 = i from by omega]
                exact swapAt_getElem?_fst ts i t t2 hil
              rw [hp2] at hp
              cases hp
              rw [hd]
              decide
          · rw [if_neg hd] at h
            refine ih (i + 1) ts (by omega) hE ?_ ?_ ?_ res h
            · intro j a b hj ha hb
              rcases Nat.eq_or_lt_of_le hj with hj2 | hj2
              · have hj3 : j = i := by omega
                rw [hj3] at hb
                have hbt : b = t2 := by
                  rw [heq2] at hb
                  exact ((Option.some.injEq _ _).mp hb).symm
                intro hcon
                rw [hbt] at hcon
                exact hd hcon.2
              · exact hB j a b (by omega) ha hb
            · intro j a b hj ha hb hbws
              exact hF j a b (by omega) ha hb hbws
            · intro a p h1 ha hws2 hp
              have hap : a = t2 := by
                rw [heq2] at ha
                exact ((Option.some.injEq _ _).mp ha).symm
              subst hap
              exact absurd hws (hF i t a (le_refl i) heq heq2 hws2).1
      · rw [if_neg hws] at h
        refine ih (i + 1) ts (by omega) hE ?_ ?_ ?_ res h
        · intro j a b hj ha hb
          rcases Nat.eq_or_lt_of_le hj with hj2 | hj2
          · have hj3 : j = i := by omega
            subst hj3
            have hat : a = t := by
              rw [heq] at ha
              exact ((Option.some.injEq _ _).mp ha).symm
            subst hat
            intro hcon
            exact hws hcon.1
          · exact hB j a b (by omega) ha hb
        · intro j a b hj ha hb hbws
          exact hF j a b (by omega) ha hb hbws
        · intro a p h1 ha hws2 hp
          have hpt : p = t := by
            have : i + 1 - 1 = i := by omega
            rw [this, heq] at hp
            exact ((Option.some.injEq _ _).mp hp).symm
          subst hpt
          exact hws

/-- Counterexample to C8 as stated: on `[WS, WS, DEDENT, NEWLINE]` the
single forward scan swaps only the second whitespace token with the
dedent, producing `[WS, DEDENT, WS, NEWLINE]` — the result still has
an `UNIMPORTANT_WS` token immediately preceding a `DEDENT` token, so
the pass does not normalize every adjacent pair. -/
theorem c8_counterexample_ws_before_dedent_remains :
    fixup_dedent_tokens
        [⟨"UNIMPORTANT_WS", " ", ⟨1, 0⟩⟩, ⟨"UNIMPORTANT_WS", "  ", ⟨1, 1⟩⟩,
         ⟨"DEDENT", "", ⟨1, 3⟩⟩, ⟨"NEWLINE", "\n", ⟨1, 4⟩⟩] =
      some
        [⟨"UNIMPORTANT_WS", " ", ⟨1, 0⟩⟩, ⟨"DEDENT", "", ⟨1, 3⟩⟩,
         ⟨"UNIMPORTANT_WS", "  ", ⟨1, 1⟩⟩, ⟨"NEWLINE", "\n", ⟨1, 4⟩⟩] ∧
      (⟨"UNIMPORTANT_WS", " ", ⟨1, 0⟩⟩ : Token).name = UNIMPORTANT_WS ∧
      (⟨"DEDENT", "", ⟨1, 3⟩⟩ : Token).name = DEDENT := by
  decide

/-- C8 (amended): `fixup_dedent_tokens` swaps adjacent
(whitespace, dedent) pairs in one forward scan.  Whenever in the input
no `UNIMPORTANT_WS` token immediately follows an `UNIMPORTANT_WS` or
`DEDENT` token and the final token is neither, the pass returns a
token list in which no `UNIMPORTANT_WS` token immediately precedes a
`DEDENT` token; the output is a permutation of the input of the same
length, and every token that is neither `UNIMPORTANT_WS` nor `DEDENT`
keeps its index. -/
theorem c8_fixup_dedent_normalization (ts : List Token)
    (hP : ∀ (j : Nat) (a b : Token), ts[j]? = some a → ts[j+1]? = some b →
      b.name = UNIMPORTANT_WS → a.name ≠ UNIMPORTANT_WS ∧ a.name ≠ DEDENT)
    (hL : ∀ tl, ts.getLast? = some tl →
      tl.name ≠ UNIMPORTANT_WS ∧ tl.name ≠ DEDENT) :
    ∃ R, fixup_dedent_tokens ts = some R ∧
      (∀ (j : Nat) (a b : Token), R[j]? = some a → R[j+1]? = some b →
        ¬(a.name = UNIMPORTANT_WS ∧ b.name = DEDENT)) ∧
      R.length = ts.length ∧ R.Perm ts ∧
      (∀ (j : Nat) (tj : Token), ts[j]? = some tj →
        tj.name ≠ UNIMPORTANT_WS → tj.name ≠ DEDENT → R[j]? = some tj) := by
  have hE : ∀ tl, ts[ts.length - 1]? = some tl →
      tl.name ≠ UNIMPORTANT_WS ∧ tl.name ≠ DEDENT := by
    intro tl htl
    apply hL
    rw [List.getLast?_eq_getElem?]
    exact htl
  obtain ⟨R, hR, hnorm⟩ :=
    fixupGo_norm ts.length 0 ts (by omega) hE
      (fun j a b hj _ _ => absurd hj (by omega))
      (fun j a b _ ha hb hbws => hP j a b ha hb hbws)
      (fun a p h1 _ _ _ => absurd h1 (by omega))
      (fixupGo ts 0 ts.length) rfl
  obtain ⟨hlen, hperm, hstable⟩ := fixupGo_someFacts ts.length 0 ts R hR
  exact ⟨R, hR, hnorm, hlen, hperm, hstable⟩

/-- Witness for C8 on the input `[NAME, WS, DEDENT, NEWLINE]`: the pass
returns, and the result has no whitespace token immediately before a
dedent token. -/
theorem c8_fixup_dedent_normalization_witness :
    ∃ R, fixup_dedent_tokens
        [⟨"NAME", "x", ⟨1, 0⟩⟩, ⟨"UNIMPORTANT_WS", " ", ⟨1, 1⟩⟩,
         ⟨"DEDENT", "", ⟨1, 2⟩⟩, ⟨"NEWLINE", "\n", ⟨1, 3⟩⟩] = some R ∧
      ∀ (j : Nat) (a b : Token), R[j]? = some a → R[j+1]? = some b →
        ¬(a.name = UNIMPORTANT_WS ∧ b.name = DEDENT) := by
  obtain ⟨R, h1, h2, _⟩ := c8_fixup_dedent_normalization
    [⟨"NAME", "x", ⟨1, 0⟩⟩, ⟨"UNIMPORTANT_WS", " ", ⟨1, 1⟩⟩,
     ⟨"DEDENT", "", ⟨1, 2⟩⟩, ⟨"NEWLINE", "\n", ⟨1, 3⟩⟩]
    (by
      intro j a b ha hb hbws
      rcases j with _ | _ | _ | j
      · simp only [List.getElem?_cons_zero, List.getElem?_cons_succ]
          at ha hb
        cases ha
        cases hb
        exact ⟨by decide, by decide⟩
      · simp only [List.getElem?_cons_zero, List.getElem?_cons_succ]
          at ha hb
        cases hb
        exact absurd hbws (by decide)
      · simp only [List.getElem?_cons_zero, List.getElem?_cons_succ]
          at ha hb
        cases hb
        exact absurd hbws (by decide)
      · simp only [List.getElem?_cons_succ, List.getElem?_nil] at hb
        exact Option.noConfusion hb)
    (by
      intro tl hl
      rw [show ([⟨"NAME", "x", ⟨1, 0⟩⟩, ⟨"UNIMPORTANT_WS", " ", ⟨1, 1⟩⟩,
          ⟨"DEDENT", "", ⟨1, 2⟩⟩, ⟨"NEWLINE", "\n", ⟨1, 3⟩⟩] :
            List Token).getLast? =
          some ⟨"NEWLINE", "\n", ⟨1, 3⟩⟩ from rfl] at hl
      cases hl
      exact ⟨by decide, by decide⟩)
  exact ⟨R, h1, h2⟩

end DU
